import Mathlib

/-!
Verification of the phrase-replacement radix tree of
`vscode-code-comment-translator` (`src/RadixTree.ts`) and of the
deterministic fragments of its orchestrator (`src/extension.ts`).

The TypeScript code is embedded shallowly: the mutable `RadixNode` objects
become a purely functional nested inductive type, the in-place mutation of
`insertRecursive` becomes a function returning the updated node, and the
JavaScript `Map` keyed by first word becomes an association list with
JavaScript `Map.set` semantics (update in place when the key is present,
append otherwise).
-/

set_option autoImplicit false

namespace CommentTranslator

/-- Embedding of the `RadixNode` record of `src/RadixTree.ts`: a phrase
label (edge label from the parent), an optional replacement, an
end-of-word marker, and the children map.  The children `Map<string,
RadixNode>` keyed by the first word of each child is embedded as an
association list in insertion order, which is exactly the iteration
order of a JavaScript `Map`. -/
inductive RadixNode : Type where
  | mk (phrase : List String) (replacement : Option String)
       (isEndOfWord : Bool) (children : List (String × RadixNode)) : RadixNode

/-- Projection for the `phrase` field of a `RadixNode`. -/
def RadixNode.phrase : RadixNode → List String
  | .mk p _ _ _ => p

/-- Projection for the `replacement` field of a `RadixNode`. -/
def RadixNode.replacement : RadixNode → Option String
  | .mk _ r _ _ => r

/-- Projection for the `isEndOfWord` field of a `RadixNode`. -/
def RadixNode.isEndOfWord : RadixNode → Bool
  | .mk _ _ e _ => e

/-- Projection for the `children` field of a `RadixNode`. -/
def RadixNode.children : RadixNode → List (String × RadixNode)
  | .mk _ _ _ c => c

@[simp] theorem RadixNode.phrase_mk (p : List String) (r : Option String)
    (e : Bool) (c : List (String × RadixNode)) : (RadixNode.mk p r e c).phrase = p := rfl

@[simp] theorem RadixNode.replacement_mk (p : List String) (r : Option String)
    (e : Bool) (c : List (String × RadixNode)) : (RadixNode.mk p r e c).replacement = r := rfl

@[simp] theorem RadixNode.isEndOfWord_mk (p : List String) (r : Option String)
    (e : Bool) (c : List (String × RadixNode)) : (RadixNode.mk p r e c).isEndOfWord = e := rfl

@[simp] theorem RadixNode.children_mk (p : List String) (r : Option String)
    (e : Bool) (c : List (String × RadixNode)) : (RadixNode.mk p r e c).children = c := rfl

/-- Embedding of `findCommonPrefix` of `src/RadixTree.ts` (the name is
adjusted for this file): the number of words the two arrays share from
their beginning. -/
def commonPrefixLen : List String → List String → Nat
  | a :: as, b :: bs => if a = b then commonPrefixLen as bs + 1 else 0
  | _, _ => 0

/-- Embedding of the inner word-by-word comparison loop of
`findLongestMatchRecursive` (`src/RadixTree.ts` lines 314 to 319):
`phraseMatches p ws` holds when every word of `p` equals the word of
`ws` at the same offset, that is when `p` is a prefix of `ws`. -/
def phraseMatches : List String → List String → Bool
  | [], _ => true
  | _ :: _, [] => false
  | a :: as, b :: bs => a = b && phraseMatches as bs

/-- JavaScript `Map.set` / object-spread update on an association list:
if the key is present its value is updated in place (keeping its
position in iteration order), otherwise the pair is appended. -/
def setAssoc {β : Type} : List (String × β) → String → β → List (String × β)
  | [], key, v => [(key, v)]
  | (k, b) :: rest, key, v =>
    if k = key then (key, v) :: rest else (k, b) :: setAssoc rest key v

/-- The scan of the `for (const [key, child] of node.children)` loop of
`insertRecursive` (`src/RadixTree.ts` lines 165 to 242): find the first
child whose phrase has a nonzero common prefix with the remaining
words, returning the children before it, its key, the child itself and
the children after it. -/
def findFirstOverlap (children : List (String × RadixNode)) (remaining : List String) :
    Option (List (String × RadixNode) × String × RadixNode × List (String × RadixNode)) :=
  match children with
  | [] => none
  | (key, child) :: rest =>
    if 0 < commonPrefixLen child.phrase remaining then
      some ([], key, child, rest)
    else
      match findFirstOverlap rest remaining with
      | none => none
      | some (bef, k, c, aft) => some ((key, child) :: bef, k, c, aft)

/-- Embedding of `insertRecursive` of `src/RadixTree.ts`.  The pair
`(words, index)` of the source is represented by the single list
`remaining = words.slice(index)`: the source only uses `words[index]`
(the head), `words.slice(index)` (the whole list) and the test
`index === words.length` (emptiness), and the case 1 recursion advances
`index` by `commonPrefixLength`, which is `List.drop` here.  Mutation of
the node is embedded by returning the updated node. -/
def insertRecursive (node : RadixNode) (remaining : List String) (replacement : String) :
    RadixNode :=
  match remaining with
  | [] =>
    -- All words processed: mark the end of the phrase and store the
    -- replacement.
    RadixNode.mk node.phrase (some replacement) true node.children
  | w :: rest =>
    match hfo : findFirstOverlap node.children (w :: rest) with
    | none =>
      -- No common prefix with any child: create a new node with the
      -- entire remaining phrase, keyed by its first word.
      RadixNode.mk node.phrase node.replacement node.isEndOfWord
        (setAssoc node.children w (RadixNode.mk (w :: rest) (some replacement) true []))
    | some (bef, key, child, aft) =>
      let k := commonPrefixLen child.phrase (w :: rest)
      if k = child.phrase.length then
        -- Case 1, complete match of the child phrase: recurse with the
        -- remaining words advanced by the common prefix length.
        RadixNode.mk node.phrase node.replacement node.isEndOfWord
          (bef ++ (key, insertRecursive child ((w :: rest).drop k) replacement) :: aft)
      else if k = (w :: rest).length then
        -- Case 2, the new phrase is shorter: split the existing child.
        let newNode : RadixNode :=
          RadixNode.mk (child.phrase.drop k) child.replacement child.isEndOfWord child.children
        let child' : RadixNode :=
          RadixNode.mk (w :: rest) (some replacement) true
            (setAssoc [] ((child.phrase.drop k).headD "") newNode)
        RadixNode.mk node.phrase node.replacement node.isEndOfWord
          (bef ++ (key, child') :: aft)
      else
        -- Case 3, partial overlap on both sides: three-way split.
        let splitNode : RadixNode :=
          RadixNode.mk (child.phrase.drop k) child.replacement child.isEndOfWord child.children
        let newNode : RadixNode :=
          RadixNode.mk ((w :: rest).drop k) (some replacement) true []
        let child' : RadixNode :=
          RadixNode.mk ((w :: rest).take k) none false
            (setAssoc (setAssoc [] ((child.phrase.drop k).headD "") splitNode)
              (((w :: rest).drop k).headD "") newNode)
        RadixNode.mk node.phrase node.replacement node.isEndOfWord
          (bef ++ (key, child') :: aft)
termination_by remaining.length
decreasing_by
  have hpos : 0 < commonPrefixLen child.phrase (w :: rest) := by
    have h := hfo
    clear hfo
    generalize node.children = l at h
    induction l generalizing bef with
    | nil => simp [findFirstOverlap] at h
    | cons hd tl ih =>
      rw [findFirstOverlap] at h
      by_cases hc : 0 < commonPrefixLen hd.2.phrase (w :: rest)
      · simp only [hc, if_true, if_pos, Option.some.injEq, Prod.mk.injEq] at h
        obtain ⟨h1, h2, h3, h4⟩ := h
        exact h3 ▸ hc
      · simp only [hc, if_false, if_neg, not_false_iff] at h
        rcases hfo' : findFirstOverlap tl (w :: rest) with _ | ⟨bef', k', c', aft'⟩
        · simp [hfo'] at h
        · simp only [hfo', Option.some.injEq, Prod.mk.injEq] at h
          obtain ⟨h1, h2, h3, h4⟩ := h
          subst h2
          subst h3
          subst h4
          exact ih bef' hfo'
  simp only [List.length_drop, List.length_cons]
  omega

/-- The whitespace test of JavaScript `String.prototype.trim`, on the
whitespace characters that can occur in a code comment. -/
def isWhiteSpaceChar (c : Char) : Bool :=
  c = ' ' || c = '\t' || c = '\n' || c = '\r'

/-- JavaScript `String.prototype.trim` on the character list of a
string: strip whitespace from both ends. -/
def trimChars (l : List Char) : List Char :=
  ((l.dropWhile isWhiteSpaceChar).reverse.dropWhile isWhiteSpaceChar).reverse

/-- JavaScript `String.prototype.split(" ")` on the character list of a
string: cut at every single space character, never collapsing runs (two
adjacent spaces produce an empty word between them) and never returning
an empty array (the empty string splits to `[""]`). -/
def splitSpace : List Char → List (List Char)
  | [] => [[]]
  | c :: rest =>
    if c = ' ' then [] :: splitSpace rest
    else
      match splitSpace rest with
      | [] => [[c]]
      | w :: ws => (c :: w) :: ws

/-- The tokenization `phrase.trim().split(" ")` of `insert` of
`src/RadixTree.ts`, embedded at character level so that it evaluates by
kernel reduction. -/
def tokenize (phrase : String) : List String :=
  (splitSpace (trimChars phrase.data)).map (fun w => String.mk w)

/-- Embedding of `insert` of `src/RadixTree.ts` on the functional tree:
returns the tree with the phrase added. -/
def insert (t : RadixNode) (phrase : String) (replacement : String) : RadixNode :=
  insertRecursive t (tokenize phrase) replacement

/-- The root node created by the `ReplacementRadixTree` constructor:
empty phrase, no children, not an end of word. -/
def emptyTree : RadixNode :=
  RadixNode.mk [] none false []

/-- A tree built from a fresh root by a finite sequence of `insert`
calls, in order. -/
def buildTree (ps : List (String × String)) : RadixNode :=
  ps.foldl (fun t pr => insert t pr.1 pr.2) emptyTree

mutual

/-- Embedding of `findLongestMatchRecursive` of `src/RadixTree.ts`. -/
def findLongestMatchRecursive (node : RadixNode) (words : List String)
    (index : Nat) (matchLength : Nat) : Option (Nat × String) :=
  match node with
  | .mk _ rep isEnd cs =>
    if words.length ≤ index then
      -- End of the input words: return the replacement when the current
      -- node is marked as an end of phrase.  The source's non-null
      -- assertion `node.replacement!` is embedded as `Option.getD`.
      if isEnd then some (matchLength, rep.getD "") else none
    else
      findChildrenLoop cs words index matchLength
        (if isEnd then some (matchLength, rep.getD "") else none)

/-- The `for (const child of node.children.values())` loop of
`findLongestMatchRecursive`, carrying the best match found so far. -/
def findChildrenLoop (cs : List (String × RadixNode)) (words : List String)
    (index : Nat) (matchLength : Nat) (best : Option (Nat × String)) :
    Option (Nat × String) :=
  match cs with
  | [] => best
  | (_, child) :: rest =>
    let best' :=
      if words.length < index + child.phrase.length then
        -- Skip children whose phrases would extend beyond the input.
        best
      else if phraseMatches child.phrase (words.drop index) then
        match findLongestMatchRecursive child words (index + child.phrase.length)
            (matchLength + child.phrase.length) with
        | some m =>
          match best with
          | none => some m
          | some b => if b.1 < m.1 then some m else some b
        | none => best
      else best
    findChildrenLoop rest words index matchLength best'

end

/-- Embedding of `findLongestMatch` of `src/RadixTree.ts`. -/
def findLongestMatch (t : RadixNode) (words : List String) (startIndex : Nat) :
    Option (Nat × String) :=
  findLongestMatchRecursive t words startIndex 0

/-! ### Orchestrator fragments (`src/extension.ts`) -/

/-- The `translatedWords.forEach((translation, index) => ...)` loop of
`handleDocumentUpdate` (`src/extension.ts` lines 250 to 283): for each
translation at position `index`, if `wordsToTranslate[index]` exists the
pair is inserted into the tree and merged into the persisted dictionary
(JavaScript object spread, embedded as `setAssoc`); otherwise the
iteration returns early and the loop continues. -/
def foldTranslations (reqs : List String) :
    RadixNode × List (String × String) → List String → Nat →
    RadixNode × List (String × String)
  | st, [], _ => st
  | (t, d), translation :: rest, index =>
    match reqs.get? index with
    | none => foldTranslations reqs (t, d) rest (index + 1)
    | some randomWord =>
      foldTranslations reqs
        (insert t randomWord translation, setAssoc d randomWord translation)
        rest (index + 1)

/-- The batch fold-back of `handleDocumentUpdate` (`src/extension.ts`
lines 226 to 287), starting from the already parsed response list
`translatedWords`: if the parsed list is empty the handler returns
without touching the tree or the dictionary, otherwise every response
is paired with the request at the same index. -/
def applyBatch (tree : RadixNode) (dict : List (String × String))
    (wordsToTranslate : List String) (translatedWords : List String) :
    RadixNode × List (String × String) :=
  if translatedWords.length = 0 then (tree, dict)
  else foldTranslations wordsToTranslate (tree, dict) translatedWords 0

/-- The per-language dictionary accumulated by the repeated
`context.globalState.update(lang, { ...get, [randomWord]: translation })`
merges: a fold of object-spread updates. -/
def objFold (d : List (String × String)) (ps : List (String × String)) :
    List (String × String) :=
  ps.foldl (fun d' pr => setAssoc d' pr.1 pr.2) d

/-- JavaScript `Array.prototype.join(" ")`: the elements separated by
single spaces, the empty string on an empty array. -/
def joinSpace : List String → String
  | [] => ""
  | [w] => w
  | w :: rest => w ++ " " ++ joinSpace rest

/-- Embedding of `getRandomWordsFromWords` of `src/extension.ts`.  The
call `getRandomNumberInRange(0, words.length - 1)` is replaced by the
explicit parameter `randomIndex` (the spec asks for an injectable random
source).  The requested count keeps the JavaScript number semantics for
the `wordCount < 1` guard by using `Int`; the final `.join(" ")` of the
source is `joinSpace`. -/
def getRandomWordsFromWords (words : List String) (wordCount : Int)
    (randomIndex : Nat) : Option String :=
  if wordCount < 1 then none
  else
    let randomWord := words.getD randomIndex ""
    if wordCount = 1 then some randomWord
    else
      let wordsAfterRandomWord : Int :=
        (words.length : Int) - (randomIndex : Int) - 1
      let wordsAfterRandomWordCalculated : Int :=
        if wordsAfterRandomWord > wordCount then wordCount else wordsAfterRandomWord
      some (joinSpace
        ((words.drop randomIndex).take wordsAfterRandomWordCalculated.toNat))

/-! ### Heap-threaded embedding of the longest-match search

To state the frame property of `findLongestMatch` (claim C10) the
traversal is embedded a second time against an explicit heap of nodes
addressed by indices, with the heap threaded through every statement of
the source exactly as a mutable store would be.  `findLongestMatchRecursive`
contains only field reads, so its heap-threaded embedding reads nodes
with `List.get?` and returns the heap it was handed along with the
result.  The `fuel` argument bounds the recursion depth, since an
arbitrary heap may contain pointer cycles. -/

/-- A radix node in the heap-threaded embedding: identical to
`RadixNode` except that children point to heap indices. -/
structure RadixNodeH : Type where
  phrase : List String
  replacement : Option String
  isEndOfWord : Bool
  children : List (String × Nat)

/-- A heap of radix nodes addressed by `Nat` indices. -/
def HeapH : Type := List RadixNodeH

mutual

/-- Heap-threaded embedding of `findLongestMatchRecursive`: every step
receives the heap and returns it together with the result, as the
statement-by-statement translation of a computation over a mutable
store.  The source contains no assignment to any node field, so no step
writes to the heap. -/
def findLongestMatchRecursiveH (fuel : Nat) (h : HeapH) (idx : Nat)
    (words : List String) (index : Nat) (matchLength : Nat) :
    Option (Nat × String) × HeapH :=
  match fuel with
  | 0 => (none, h)
  | fuel + 1 =>
    match List.get? h idx with
    | none => (none, h)
    | some node =>
      if words.length ≤ index then
        ((if node.isEndOfWord then some (matchLength, node.replacement.getD "") else none), h)
      else
        findChildrenLoopH fuel h node.children words index matchLength
          (if node.isEndOfWord then some (matchLength, node.replacement.getD "") else none)
termination_by (fuel, 0)

/-- Heap-threaded embedding of the children loop of
`findLongestMatchRecursive`. -/
def findChildrenLoopH (fuel : Nat) (h : HeapH) (cs : List (String × Nat))
    (words : List String) (index : Nat) (matchLength : Nat)
    (best : Option (Nat × String)) : Option (Nat × String) × HeapH :=
  match cs with
  | [] => (best, h)
  | (_, childIdx) :: rest =>
    match List.get? h childIdx with
    | none => findChildrenLoopH fuel h rest words index matchLength best
    | some child =>
      if words.length < index + child.phrase.length then
        findChildrenLoopH fuel h rest words index matchLength best
      else if phraseMatches child.phrase (words.drop index) then
        match findLongestMatchRecursiveH fuel h childIdx words
            (index + child.phrase.length) (matchLength + child.phrase.length) with
        | (m, h') =>
          let best' :=
            match m with
            | some mv =>
              match best with
              | none => some mv
              | some b => if b.1 < mv.1 then some mv else some b
            | none => best
          findChildrenLoopH fuel h' rest words index matchLength best'
      else findChildrenLoopH fuel h rest words index matchLength best
termination_by (fuel, cs.length + 1)

end

/-! ### Specification-side abstractions

The following definitions do not come from the source; they are the
mathematical vocabulary needed to state the claims: the list of stored
phrase/replacement pairs of a tree, lookups in it, the most recent
replacement of an insertion history, and the structural invariant. -/

mutual

/-- The stored content of a (sub)tree: one pair per end-of-word node,
whose key is the concatenation of the phrase labels from this node
down to it (not including this node's own label) and whose value is the
replacement held there (`Option.getD ""`, matching the `!` assertion
used by the search). -/
def entries : RadixNode → List (List String × String)
  | .mk _ rep isEnd cs =>
    (if isEnd then [([], rep.getD "")] else []) ++ entriesChildren cs

/-- The stored content contributed by a children list: each child's
entries, with the child's phrase label prepended to every key. -/
def entriesChildren : List (String × RadixNode) → List (List String × String)
  | [] => []
  | (_, c) :: rest =>
    (entries c).map (fun sr => (c.phrase ++ sr.1, sr.2)) ++ entriesChildren rest

end

/-- The entries of a child as seen from its parent: the phrase label of
the child prepended to every key. -/
def blockMap (p : List String) (l : List (List String × String)) :
    List (List String × String) :=
  l.map (fun sr => (p ++ sr.1, sr.2))

/-- First-match lookup in a list of phrase/replacement pairs. -/
def lookupE : List (List String × String) → List String → Option String
  | [], _ => none
  | (s, r) :: rest, q => if s = q then some r else lookupE rest q

/-- The replacement stored in a tree under an exact word sequence. -/
def lookupSeq (t : RadixNode) (q : List String) : Option String :=
  lookupE (entries t) q

/-- The number of end-of-word nodes of a tree whose root-to-node label
concatenation is the given word sequence. -/
def countKey (t : RadixNode) (q : List String) : Nat :=
  (entries t).countP (fun sr => decide (sr.1 = q))

/-- The most recently inserted replacement for a tokenized word
sequence in an insertion history (later entries win). -/
def lastRepl : List (List String × String) → List String → Option String
  | [], _ => none
  | pr :: rest, q =>
    match lastRepl rest q with
    | some r => some r
    | none => if pr.1 = q then some pr.2 else none

/-- The most recent value for a raw string key in a pair list (later
entries win). -/
def lastValStr : List (String × String) → String → Option String
  | [], _ => none
  | pr :: rest, p =>
    match lastValStr rest p with
    | some r => some r
    | none => if pr.1 = p then some pr.2 else none

/-- First-match lookup by string key, used for the persisted
dictionary. -/
def lookupStr : List (String × String) → String → Option String
  | [], _ => none
  | (k, v) :: rest, p => if k = p then some v else lookupStr rest p

/-- The insertion history of a list of raw phrase/replacement pairs,
with phrases tokenized as `insert` tokenizes them. -/
def tokHist (ps : List (String × String)) : List (List String × String) :=
  ps.map (fun pr => (tokenize pr.1, pr.2))

/-- Structural well-formedness of a tree, maintained by insertion: every
child has a nonempty phrase label, is keyed by the first word of its
label, keys are distinct, and children are recursively well-formed. -/
inductive WF : RadixNode → Prop where
  | mk (n : RadixNode)
      (hkeys : ∀ kc ∈ n.children, kc.2.phrase ≠ [] ∧ kc.1 = kc.2.phrase.headD "")
      (hnodup : (n.children.map Prod.fst).Nodup)
      (hch : ∀ kc ∈ n.children, WF kc.2) : WF n

/-- The radix property at word granularity, as claim C4 states it: at
every node, the phrase labels of the children begin with pairwise
distinct first words. -/
inductive DistinctHeads : RadixNode → Prop where
  | mk (n : RadixNode)
      (hheads : (n.children.map (fun kc => kc.2.phrase.headD "")).Nodup)
      (hch : ∀ kc ∈ n.children, DistinctHeads kc.2) : DistinctHeads n

/-- A stored key/replacement pair of `t` whose key is the length-`k`
prefix of `rest`: the candidates among which `findLongestMatch` picks
the longest. -/
def StoredPre (t : RadixNode) (rest : List String) (k : Nat) (r : String) : Prop :=
  k ≤ rest.length ∧ lookupSeq t (rest.take k) = some r

/-! ### Basic lemmas on word lists -/

theorem commonPrefixLen_le_left (a b : List String) : commonPrefixLen a b ≤ a.length := by
  induction a generalizing b with
  | nil => simp [commonPrefixLen]
  | cons x xs ih =>
    cases b with
    | nil => simp [commonPrefixLen]
    | cons y ys =>
      rw [commonPrefixLen]
      split
      · simpa using ih ys
      · simp

theorem commonPrefixLen_le_right (a b : List String) : commonPrefixLen a b ≤ b.length := by
  induction a generalizing b with
  | nil => simp [commonPrefixLen]
  | cons x xs ih =>
    cases b with
    | nil => simp [commonPrefixLen]
    | cons y ys =>
      rw [commonPrefixLen]
      split
      · simpa using ih ys
      · simp

theorem commonPrefixLen_pos_iff (a b : List String) :
    0 < commonPrefixLen a b ↔ a ≠ [] ∧ b ≠ [] ∧ a.headD "" = b.headD "" := by
  cases a with
  | nil => simp [commonPrefixLen]
  | cons x xs =>
    cases b with
    | nil => simp [commonPrefixLen]
    | cons y ys =>
      rw [commonPrefixLen]
      split
      · simp_all
      · simp_all

theorem phraseMatches_iff (p s : List String) :
    phraseMatches p s = true ↔ ∃ u, s = p ++ u := by
  induction p generalizing s with
  | nil => simp [phraseMatches]
  | cons x xs ih =>
    cases s with
    | nil => simp [phraseMatches]
    | cons y ys =>
      rw [phraseMatches]
      simp only [Bool.and_eq_true, decide_eq_true_eq, ih, List.cons_append,
        List.cons.injEq]
      constructor
      · rintro ⟨h1, u, h2⟩
        exact ⟨u, h1.symm, h2⟩
      · rintro ⟨u, h1, h2⟩
        exact ⟨h1.symm, u, h2⟩

theorem phraseMatches_append (p u : List String) : phraseMatches p (p ++ u) = true := by
  rw [phraseMatches_iff]
  exact ⟨u, rfl⟩

theorem phraseMatches_length_le {p s : List String} (h : phraseMatches p s = true) :
    p.length ≤ s.length := by
  rw [phraseMatches_iff] at h
  obtain ⟨u, rfl⟩ := h
  simp

theorem phraseMatches_eq_append {p s : List String} (h : phraseMatches p s = true) :
    s = p ++ s.drop p.length := by
  rw [phraseMatches_iff] at h
  obtain ⟨u, rfl⟩ := h
  simp

theorem commonPrefixLen_eq_left_of_matches {a b : List String}
    (h : phraseMatches a b = true) : commonPrefixLen a b = a.length := by
  rw [phraseMatches_iff] at h
  obtain ⟨u, rfl⟩ := h
  induction a with
  | nil => simp [commonPrefixLen]
  | cons x xs ih =>
    rw [List.cons_append, commonPrefixLen]
    simp [ih]

theorem matches_of_commonPrefixLen_eq_left {a b : List String}
    (h : commonPrefixLen a b = a.length) : phraseMatches a b = true := by
  induction a generalizing b with
  | nil => simp [phraseMatches]
  | cons x xs ih =>
    cases b with
    | nil => simp [commonPrefixLen] at h
    | cons y ys =>
      rw [commonPrefixLen] at h
      by_cases hxy : x = y
      · rw [if_pos hxy] at h
        simp only [List.length_cons, Nat.add_right_cancel_iff] at h
        rw [phraseMatches]
        simp [hxy, @ih ys h]
      · rw [if_neg hxy] at h
        simp at h

theorem commonPrefixLen_take (a b : List String) :
    a.take (commonPrefixLen a b) = b.take (commonPrefixLen a b) := by
  induction a generalizing b with
  | nil => simp [commonPrefixLen]
  | cons x xs ih =>
    cases b with
    | nil => simp [commonPrefixLen]
    | cons y ys =>
      rw [commonPrefixLen]
      split
      · simp_all
      · simp

theorem commonPrefixLen_drop_head_ne {a b : List String}
    (ha : commonPrefixLen a b < a.length) (hb : commonPrefixLen a b < b.length) :
    (a.drop (commonPrefixLen a b)).headD "" ≠ (b.drop (commonPrefixLen a b)).headD "" := by
  induction a generalizing b with
  | nil => simp at ha
  | cons x xs ih =>
    cases b with
    | nil => simp at hb
    | cons y ys =>
      by_cases hxy : x = y
      · rw [commonPrefixLen, if_pos hxy] at ha hb ⊢
        simp only [List.drop_succ_cons]
        refine @ih ys ?_ ?_
        · simp only [List.length_cons] at ha
          omega
        · simp only [List.length_cons] at hb
          omega
      · rw [commonPrefixLen, if_neg hxy]
        simpa using hxy

/-! ### Lemmas on the children scan and the map update -/

theorem findFirstOverlap_none {cs : List (String × RadixNode)} {rem : List String}
    (h : findFirstOverlap cs rem = none) :
    ∀ kc ∈ cs, commonPrefixLen kc.2.phrase rem = 0 := by
  induction cs with
  | nil => simp
  | cons hd tl ih =>
    rw [findFirstOverlap] at h
    split at h
    · simp at h
    · rename_i hc
      intro kc hkc
      rcases List.mem_cons.mp hkc with rfl | hmem
      · omega
      · rcases hfo : findFirstOverlap tl rem with _ | q
        · exact ih hfo kc hmem
        · rw [hfo] at h
          obtain ⟨q1, q2, q3, q4⟩ := q
          simp at h

theorem findFirstOverlap_some {cs : List (String × RadixNode)} {rem : List String}
    {bef : List (String × RadixNode)} {key : String} {child : RadixNode}
    {aft : List (String × RadixNode)}
    (h : findFirstOverlap cs rem = some (bef, key, child, aft)) :
    cs = bef ++ (key, child) :: aft ∧ 0 < commonPrefixLen child.phrase rem ∧
      ∀ kc ∈ bef, commonPrefixLen kc.2.phrase rem = 0 := by
  induction cs generalizing bef with
  | nil => simp [findFirstOverlap] at h
  | cons hd tl ih =>
    rw [findFirstOverlap] at h
    split at h
    · rename_i hc
      simp only [Option.some.injEq, Prod.mk.injEq] at h
      obtain ⟨h1, h2, h3, h4⟩ := h
      subst h1; subst h2; subst h3; subst h4
      exact ⟨by simp, hc, by simp⟩
    · rename_i hc
      rcases hfo : findFirstOverlap tl rem with _ | ⟨bef', k', c', aft'⟩
      · rw [hfo] at h; simp at h
      · rw [hfo] at h
        simp only [Option.some.injEq, Prod.mk.injEq] at h
        obtain ⟨h1, h2, h3, h4⟩ := h
        subst h2; subst h3; subst h4
        obtain ⟨g1, g2, g3⟩ := ih hfo
        subst h1
        refine ⟨by simp [g1], g2, ?_⟩
        intro kc hkc
        rcases List.mem_cons.mp hkc with rfl | hmem
        · simp only [Prod.mk.eta] at hc ⊢
          omega
        · exact g3 kc hmem

theorem setAssoc_of_not_mem {β : Type} {l : List (String × β)} {key : String} (v : β)
    (h : ∀ kc ∈ l, kc.1 ≠ key) : setAssoc l key v = l ++ [(key, v)] := by
  induction l with
  | nil => simp [setAssoc]
  | cons hd tl ih =>
    rw [setAssoc]
    rw [if_neg (h hd (by simp))]
    simp only [List.cons_append, List.cons.injEq, true_and]
    exact ih (fun kc hkc => h kc (List.mem_cons_of_mem hd hkc))

/-! ### Unfolding lemmas for insertion -/

theorem insertRecursive_nil (node : RadixNode) (repl : String) :
    insertRecursive node [] repl = RadixNode.mk node.phrase (some repl) true node.children := by
  rw [insertRecursive]

theorem insertRecursive_cons_none (node : RadixNode) (w : String) (rest : List String)
    (repl : String) (hfo : findFirstOverlap node.children (w :: rest) = none) :
    insertRecursive node (w :: rest) repl =
      RadixNode.mk node.phrase node.replacement node.isEndOfWord
        (setAssoc node.children w (RadixNode.mk (w :: rest) (some repl) true [])) := by
  rw [insertRecursive]
  split
  · rfl
  · rename_i heq
    rw [hfo] at heq
    exact absurd heq (by simp)

theorem insertRecursive_cons_some (node : RadixNode) (w : String) (rest : List String)
    (repl : String) (bef : List (String × RadixNode)) (key : String) (child : RadixNode)
    (aft : List (String × RadixNode))
    (hfo : findFirstOverlap node.children (w :: rest) = some (bef, key, child, aft)) :
    insertRecursive node (w :: rest) repl =
      (let k := commonPrefixLen child.phrase (w :: rest)
      if k = child.phrase.length then
        RadixNode.mk node.phrase node.replacement node.isEndOfWord
          (bef ++ (key, insertRecursive child ((w :: rest).drop k) repl) :: aft)
      else if k = (w :: rest).length then
        RadixNode.mk node.phrase node.replacement node.isEndOfWord
          (bef ++ (key, RadixNode.mk (w :: rest) (some repl) true
            (setAssoc [] ((child.phrase.drop k).headD "")
              (RadixNode.mk (child.phrase.drop k) child.replacement child.isEndOfWord
                child.children))) :: aft)
      else
        RadixNode.mk node.phrase node.replacement node.isEndOfWord
          (bef ++ (key, RadixNode.mk ((w :: rest).take k) none false
            (setAssoc (setAssoc []
                ((child.phrase.drop k).headD "")
                (RadixNode.mk (child.phrase.drop k) child.replacement child.isEndOfWord
                  child.children))
              (((w :: rest).drop k).headD "")
              (RadixNode.mk ((w :: rest).drop k) (some repl) true []))) :: aft)) := by
  rw [insertRecursive]
  split
  · rename_i heq
    rw [hfo] at heq
    exact absurd heq (by simp)
  · rename_i bef' key' child' aft' heq
    rw [hfo] at heq
    simp only [Option.some.injEq, Prod.mk.injEq] at heq
    obtain ⟨h1, h2, h3, h4⟩ := heq
    subst h1; subst h2; subst h3; subst h4
    rfl

/-! ### The entries of a tree and lookups in them -/

theorem entries_mk (p : List String) (r : Option String) (e : Bool)
    (cs : List (String × RadixNode)) :
    entries (RadixNode.mk p r e cs) =
      (if e then [([], r.getD "")] else []) ++ entriesChildren cs := by
  rw [entries]

theorem entriesChildren_nil : entriesChildren [] = [] := by
  rw [entriesChildren]

theorem entriesChildren_cons (kc : String × RadixNode) (rest : List (String × RadixNode)) :
    entriesChildren (kc :: rest) =
      blockMap kc.2.phrase (entries kc.2) ++ entriesChildren rest := by
  obtain ⟨k, c⟩ := kc
  rw [entriesChildren, blockMap]

theorem entriesChildren_append (a b : List (String × RadixNode)) :
    entriesChildren (a ++ b) = entriesChildren a ++ entriesChildren b := by
  induction a with
  | nil => simp [entriesChildren_nil]
  | cons hd tl ih => simp [entriesChildren_cons, ih]

theorem lookupE_append (a b : List (List String × String)) (q : List String) :
    lookupE (a ++ b) q =
      match lookupE a q with
      | some r => some r
      | none => lookupE b q := by
  induction a with
  | nil => simp [lookupE]
  | cons hd tl ih =>
    obtain ⟨s, r⟩ := hd
    by_cases hs : s = q
    · simp [lookupE, hs]
    · simp only [List.cons_append, lookupE, if_neg hs]
      exact ih

theorem lookupE_eq_none_iff (l : List (List String × String)) (q : List String) :
    lookupE l q = none ↔ ∀ sr ∈ l, sr.1 ≠ q := by
  induction l with
  | nil => simp [lookupE]
  | cons hd tl ih =>
    obtain ⟨s, r⟩ := hd
    by_cases hs : s = q
    · simp [lookupE, hs]
    · simp [lookupE, hs, ih]

theorem lookupE_some_mem {l : List (List String × String)} {q : List String} {r : String}
    (h : lookupE l q = some r) : (q, r) ∈ l := by
  induction l with
  | nil => simp [lookupE] at h
  | cons hd tl ih =>
    obtain ⟨s, r'⟩ := hd
    by_cases hs : s = q
    · rw [lookupE, if_pos hs] at h
      subst hs
      simp only [Option.some.injEq] at h
      subst h
      simp
    · rw [lookupE, if_neg hs] at h
      exact List.mem_cons_of_mem _ (ih h)

theorem lookupE_blockMap_append (p u : List String) (l : List (List String × String)) :
    lookupE (blockMap p l) (p ++ u) = lookupE l u := by
  induction l with
  | nil => simp [blockMap, lookupE]
  | cons hd tl ih =>
    obtain ⟨s, r⟩ := hd
    rw [blockMap] at ih ⊢
    simp only [List.map_cons, lookupE]
    exact if_congr (by rw [List.append_cancel_left_eq]) rfl ih

theorem lookupE_blockMap_nomatch {p q : List String} (l : List (List String × String))
    (h : ∀ u : List String, q ≠ p ++ u) : lookupE (blockMap p l) q = none := by
  rw [lookupE_eq_none_iff]
  intro sr hsr
  rw [blockMap] at hsr
  simp only [List.mem_map] at hsr
  obtain ⟨ab, hab, rfl⟩ := hsr
  exact fun hc => h ab.1 hc.symm

/-- Every key contributed by a child block is nonempty and starts with
the first word of the child phrase. -/
theorem blockMap_key_head {p : List String} (hp : p ≠ []) {l : List (List String × String)}
    {sr : List String × String} (hsr : sr ∈ blockMap p l) :
    sr.1 ≠ [] ∧ sr.1.headD "" = p.headD "" := by
  rw [blockMap] at hsr
  simp only [List.mem_map] at hsr
  obtain ⟨ab, hab, rfl⟩ := hsr
  cases p with
  | nil => exact absurd rfl hp
  | cons x xs => simp

theorem entriesChildren_keys_ne_nil {cs : List (String × RadixNode)}
    (h : ∀ kc ∈ cs, kc.2.phrase ≠ []) :
    ∀ sr ∈ entriesChildren cs, sr.1 ≠ [] := by
  induction cs with
  | nil => simp [entriesChildren_nil]
  | cons hd tl ih =>
    intro sr hsr
    rw [entriesChildren_cons] at hsr
    rcases List.mem_append.mp hsr with hm | hm
    · exact (blockMap_key_head (h hd (by simp)) hm).1
    · exact ih (fun kc hkc => h kc (List.mem_cons_of_mem hd hkc)) sr hm

theorem lookupE_entriesChildren_nil {cs : List (String × RadixNode)}
    (h : ∀ kc ∈ cs, kc.2.phrase ≠ []) : lookupE (entriesChildren cs) [] = none := by
  rw [lookupE_eq_none_iff]
  intro sr hsr
  exact entriesChildren_keys_ne_nil h sr hsr

/-- Lookup of a query whose first word matches no child key gives
nothing. -/
theorem lookupE_entriesChildren_none {cs : List (String × RadixNode)} {q : List String}
    (hkeys : ∀ kc ∈ cs, kc.2.phrase ≠ [] ∧ kc.1 = kc.2.phrase.headD "")
    (hq : ∀ kc ∈ cs, q.headD "" ≠ kc.1) :
    lookupE (entriesChildren cs) q = none := by
  rw [lookupE_eq_none_iff]
  intro sr hsr
  induction cs with
  | nil => simp [entriesChildren_nil] at hsr
  | cons hd tl ih =>
    rw [entriesChildren_cons] at hsr
    rcases List.mem_append.mp hsr with hm | hm
    · intro hc
      subst hc
      have := blockMap_key_head (hkeys hd (by simp)).1 hm
      rw [(hkeys hd (by simp)).2.symm] at this
      exact hq hd (by simp) this.2
    · exact ih (fun kc hkc => hkeys kc (List.mem_cons_of_mem hd hkc))
        (fun kc hkc => hq kc (List.mem_cons_of_mem hd hkc)) hm

/-- Lookup of a nonempty query in the blocks of a children list routes
to the single child whose key equals the first word of the query. -/
theorem lookupE_entriesChildren_route {cs : List (String × RadixNode)} {q : List String}
    (hkeys : ∀ kc ∈ cs, kc.2.phrase ≠ [] ∧ kc.1 = kc.2.phrase.headD "")
    (hnodup : (cs.map Prod.fst).Nodup)
    {kc0 : String × RadixNode} (hmem : kc0 ∈ cs) (hhead : q.headD "" = kc0.1) :
    lookupE (entriesChildren cs) q = lookupE (blockMap kc0.2.phrase (entries kc0.2)) q := by
  induction cs with
  | nil => simp at hmem
  | cons hd tl ih =>
    rw [entriesChildren_cons, lookupE_append]
    rw [List.map_cons, List.nodup_cons] at hnodup
    rcases List.mem_cons.mp hmem with rfl | hmem'
    · have htl : lookupE (entriesChildren tl) q = none := by
        refine lookupE_entriesChildren_none
          (fun kc hkc => hkeys kc (List.mem_cons_of_mem kc0 hkc)) ?_
        intro kc hkc hc
        rw [hhead] at hc
        exact hnodup.1 (hc ▸ List.mem_map_of_mem Prod.fst hkc)
      rcases hb : lookupE (blockMap kc0.2.phrase (entries kc0.2)) q with _ | r
      · exact htl
      · rfl
    · have hne : q.headD "" ≠ hd.1 := by
        rw [hhead]
        intro hc
        exact hnodup.1 (hc ▸ List.mem_map_of_mem Prod.fst hmem')
      have hblock : lookupE (blockMap hd.2.phrase (entries hd.2)) q = none := by
        rw [lookupE_eq_none_iff]
        intro sr hsr hc
        subst hc
        have := blockMap_key_head (hkeys hd (by simp)).1 hsr
        rw [(hkeys hd (by simp)).2.symm] at this
        exact hne this.2
      rw [hblock]
      exact ih (fun kc hkc => hkeys kc (List.mem_cons_of_mem hd hkc)) hnodup.2 hmem'

/-! ### The structural invariant and its preservation by insertion -/

theorem WF_mk_iff {p : List String} {r : Option String} {e : Bool}
    {cs : List (String × RadixNode)} :
    WF (RadixNode.mk p r e cs) ↔
      (∀ kc ∈ cs, kc.2.phrase ≠ [] ∧ kc.1 = kc.2.phrase.headD "") ∧
      (cs.map Prod.fst).Nodup ∧ (∀ kc ∈ cs, WF kc.2) := by
  constructor
  · intro h
    cases h with
    | mk n hkeys hnodup hch =>
      exact ⟨by simpa using hkeys, by simpa using hnodup, by simpa using hch⟩
  · rintro ⟨h1, h2, h3⟩
    exact WF.mk _ (by simpa using h1) (by simpa using h2) (by simpa using h3)

theorem WF_iff {t : RadixNode} :
    WF t ↔
      (∀ kc ∈ t.children, kc.2.phrase ≠ [] ∧ kc.1 = kc.2.phrase.headD "") ∧
      (t.children.map Prod.fst).Nodup ∧ (∀ kc ∈ t.children, WF kc.2) := by
  rcases t with ⟨p, r, e, cs⟩
  exact WF_mk_iff

theorem WF.keys {n : RadixNode} (h : WF n) :
    ∀ kc ∈ n.children, kc.2.phrase ≠ [] ∧ kc.1 = kc.2.phrase.headD "" := by
  cases h with | mk n hkeys hnodup hch => exact hkeys

theorem WF.nodupKeys {n : RadixNode} (h : WF n) : (n.children.map Prod.fst).Nodup := by
  cases h with | mk n hkeys hnodup hch => exact hnodup

theorem WF.child {n : RadixNode} (h : WF n) : ∀ kc ∈ n.children, WF kc.2 := by
  cases h with | mk n hkeys hnodup hch => exact hch

theorem WF_of_no_children (p : List String) (r : Option String) (e : Bool) :
    WF (RadixNode.mk p r e []) := by
  rw [WF_mk_iff]
  simp

theorem forall_mem_replace {P : String × RadixNode → Prop}
    {bef aft : List (String × RadixNode)} {key : String} {c : RadixNode} (c' : RadixNode)
    (h : ∀ kc ∈ bef ++ (key, c) :: aft, P kc) (hc' : P (key, c')) :
    ∀ kc ∈ bef ++ (key, c') :: aft, P kc := by
  intro kc hkc
  rcases List.mem_append.mp hkc with hm | hm
  · exact h kc (List.mem_append_left _ hm)
  · rcases List.mem_cons.mp hm with rfl | hm'
    · exact hc'
    · exact h kc (List.mem_append_right _ (List.mem_cons_of_mem _ hm'))

theorem insertRecursive_phrase (t : RadixNode) (rem : List String) (repl : String) :
    (insertRecursive t rem repl).phrase = t.phrase := by
  cases rem with
  | nil => rw [insertRecursive_nil, RadixNode.phrase_mk]
  | cons w rest =>
    rcases hfo : findFirstOverlap t.children (w :: rest) with _ | ⟨⟨bef, key, child, aft⟩⟩
    · rw [insertRecursive_cons_none t w rest repl hfo, RadixNode.phrase_mk]
    · rw [insertRecursive_cons_some t w rest repl bef key child aft hfo]
      dsimp only
      split
      · rw [RadixNode.phrase_mk]
      · split <;> rw [RadixNode.phrase_mk]

theorem insertRecursive_case1 {t : RadixNode} {w : String} {rest : List String}
    {repl : String} {bef : List (String × RadixNode)} {key : String} {child : RadixNode}
    {aft : List (String × RadixNode)}
    (hfo : findFirstOverlap t.children (w :: rest) = some (bef, key, child, aft))
    (hk : commonPrefixLen child.phrase (w :: rest) = child.phrase.length) :
    insertRecursive t (w :: rest) repl =
      RadixNode.mk t.phrase t.replacement t.isEndOfWord
        (bef ++ (key, insertRecursive child
          ((w :: rest).drop (commonPrefixLen child.phrase (w :: rest))) repl) :: aft) := by
  rw [insertRecursive_cons_some t w rest repl bef key child aft hfo]
  simp only [hk, if_pos]

theorem insertRecursive_case2 {t : RadixNode} {w : String} {rest : List String}
    {repl : String} {bef : List (String × RadixNode)} {key : String} {child : RadixNode}
    {aft : List (String × RadixNode)}
    (hfo : findFirstOverlap t.children (w :: rest) = some (bef, key, child, aft))
    (hk1 : commonPrefixLen child.phrase (w :: rest) ≠ child.phrase.length)
    (hk2 : commonPrefixLen child.phrase (w :: rest) = (w :: rest).length) :
    insertRecursive t (w :: rest) repl =
      RadixNode.mk t.phrase t.replacement t.isEndOfWord
        (bef ++ (key, RadixNode.mk (w :: rest) (some repl) true
          [((child.phrase.drop (commonPrefixLen child.phrase (w :: rest))).headD "",
            RadixNode.mk (child.phrase.drop (commonPrefixLen child.phrase (w :: rest)))
              child.replacement child.isEndOfWord child.children)]) :: aft) := by
  rw [insertRecursive_cons_some t w rest repl bef key child aft hfo]
  dsimp only
  rw [if_neg hk1, if_pos hk2]
  simp only [setAssoc]

theorem insertRecursive_case3 {t : RadixNode} {w : String} {rest : List String}
    {repl : String} {bef : List (String × RadixNode)} {key : String} {child : RadixNode}
    {aft : List (String × RadixNode)}
    (hfo : findFirstOverlap t.children (w :: rest) = some (bef, key, child, aft))
    (hk1 : commonPrefixLen child.phrase (w :: rest) ≠ child.phrase.length)
    (hk2 : commonPrefixLen child.phrase (w :: rest) ≠ (w :: rest).length)
    (hne : (child.phrase.drop (commonPrefixLen child.phrase (w :: rest))).headD "" ≠
      (((w :: rest)).drop (commonPrefixLen child.phrase (w :: rest))).headD "") :
    insertRecursive t (w :: rest) repl =
      RadixNode.mk t.phrase t.replacement t.isEndOfWord
        (bef ++ (key, RadixNode.mk ((w :: rest).take (commonPrefixLen child.phrase (w :: rest)))
          none false
          [((child.phrase.drop (commonPrefixLen child.phrase (w :: rest))).headD "",
            RadixNode.mk (child.phrase.drop (commonPrefixLen child.phrase (w :: rest)))
              child.replacement child.isEndOfWord child.children),
           (((w :: rest).drop (commonPrefixLen child.phrase (w :: rest))).headD "",
            RadixNode.mk ((w :: rest).drop (commonPrefixLen child.phrase (w :: rest)))
              (some repl) true [])]) :: aft) := by
  rw [insertRecursive_cons_some t w rest repl bef key child aft hfo]
  dsimp only
  rw [if_neg hk1, if_neg hk2]
  simp only [setAssoc]
  rw [if_neg hne]

/-- Well-formedness is preserved by `insertRecursive` (stated with an
explicit bound on the length of the remaining words for the
induction). -/
theorem WF_insertRecursive_aux :
    ∀ (n : Nat) (rem : List String), rem.length ≤ n →
      ∀ (t : RadixNode), WF t → ∀ repl, WF (insertRecursive t rem repl) := by
  intro n
  induction n with
  | zero =>
    intro rem hlen t hw repl
    have : rem = [] := List.length_eq_zero.mp (Nat.le_zero.mp hlen)
    subst this
    rw [insertRecursive_nil]
    rcases t with ⟨p, r, e, cs⟩
    rw [WF_mk_iff] at hw ⊢
    simpa using hw
  | succ n ih =>
    intro rem hlen t hw repl
    cases rem with
    | nil =>
      rw [insertRecursive_nil]
      rcases t with ⟨p, r, e, cs⟩
      rw [WF_mk_iff] at hw ⊢
      simpa using hw
    | cons w rest =>
      rcases hfo : findFirstOverlap t.children (w :: rest) with _ | ⟨⟨bef, key, child, aft⟩⟩
      · -- No overlapping child: a fresh leaf is appended.
        rw [insertRecursive_cons_none t w rest repl hfo]
        have hzero := findFirstOverlap_none hfo
        have hfresh : ∀ kc ∈ t.children, kc.1 ≠ w := by
          intro kc hkc
          have h0 := hzero kc hkc
          have hk := hw.keys kc hkc
          intro hc
          have : 0 < commonPrefixLen kc.2.phrase (w :: rest) := by
            rw [commonPrefixLen_pos_iff]
            refine ⟨hk.1, by simp, ?_⟩
            rw [← hk.2, hc]
            simp
          omega
        rw [setAssoc_of_not_mem _ hfresh]
        rw [WF_mk_iff]
        refine ⟨?_, ?_, ?_⟩
        · intro kc hkc
          rcases List.mem_append.mp hkc with hm | hm
          · exact hw.keys kc hm
          · rcases List.mem_cons.mp hm with rfl | hm'
            · simp
            · simp at hm'
        · rw [List.map_append]
          simp only [List.map_cons, List.map_nil]
          rw [List.nodup_append]
          refine ⟨hw.nodupKeys, List.nodup_singleton w, ?_⟩
          intro a ha
          simp only [List.mem_singleton]
          intro hc
          subst hc
          obtain ⟨kc, hkc, rfl⟩ := List.mem_map.mp ha
          exact hfresh kc hkc rfl
        · intro kc hkc
          rcases List.mem_append.mp hkc with hm | hm
          · exact hw.child kc hm
          · rcases List.mem_cons.mp hm with rfl | hm'
            · exact WF_of_no_children _ _ _
            · simp at hm'
      · obtain ⟨hsplit, hkpos, hbef⟩ := findFirstOverlap_some hfo
        have hchildmem : (key, child) ∈ t.children := by
          rw [hsplit]
          exact List.mem_append_right _ (List.mem_cons_self _ _)
        have hchildkeys : child.phrase ≠ [] ∧ key = child.phrase.headD "" :=
          hw.keys _ hchildmem
        have hchildwf : WF child := hw.child _ hchildmem
        have hheadw : child.phrase.headD "" = w := by
          rw [commonPrefixLen_pos_iff] at hkpos
          simpa using hkpos.2.2
        by_cases h1 : commonPrefixLen child.phrase (w :: rest) = child.phrase.length
        · -- Case 1: recurse into the matched child.
          rw [insertRecursive_case1 hfo h1]
          have hrec : WF (insertRecursive child
              ((w :: rest).drop (commonPrefixLen child.phrase (w :: rest))) repl) := by
            refine ih _ ?_ child hchildwf repl
            simp only [List.length_drop, List.length_cons]
            simp only [List.length_cons] at hlen
            omega
          rw [WF_mk_iff]
          rw [WF_iff] at hw
          rw [hsplit] at hw
          refine ⟨?_, ?_, ?_⟩
          · refine forall_mem_replace _ hw.1 ?_
            simp only
            rw [insertRecursive_phrase]
            exact hchildkeys
          · have : ((bef ++ (key, insertRecursive child
                ((w :: rest).drop (commonPrefixLen child.phrase (w :: rest))) repl) :: aft).map
                Prod.fst) = ((bef ++ (key, child) :: aft).map Prod.fst) := by
              simp
            rw [this]
            exact hw.2.1
          · refine forall_mem_replace _ hw.2.2 ?_
            exact hrec
        · have hklt : commonPrefixLen child.phrase (w :: rest) < child.phrase.length := by
            have := commonPrefixLen_le_left child.phrase (w :: rest)
            omega
          have hdropne : child.phrase.drop (commonPrefixLen child.phrase (w :: rest)) ≠ [] := by
            intro hc
            have := congrArg List.length hc
            simp only [List.length_drop, List.length_nil] at this
            omega
          by_cases h2 : commonPrefixLen child.phrase (w :: rest) = (w :: rest).length
          · -- Case 2: the new phrase ends inside the child label.
            rw [insertRecursive_case2 hfo h1 h2]
            rw [WF_mk_iff]
            rw [WF_iff] at hw
            rw [hsplit] at hw
            have hwfmid : WF (RadixNode.mk (w :: rest) (some repl) true
                [((child.phrase.drop (commonPrefixLen child.phrase (w :: rest))).headD "",
                  RadixNode.mk (child.phrase.drop (commonPrefixLen child.phrase (w :: rest)))
                    child.replacement child.isEndOfWord child.children)]) := by
              rw [WF_mk_iff]
              refine ⟨?_, by simp, ?_⟩
              · intro kc hkc
                rcases List.mem_cons.mp hkc with rfl | hm'
                · exact ⟨hdropne, rfl⟩
                · simp at hm'
              · intro kc hkc
                rcases List.mem_cons.mp hkc with rfl | hm'
                · rw [WF_mk_iff]
                  rw [WF_iff] at hchildwf
                  simpa using hchildwf
                · simp at hm'
            refine ⟨?_, ?_, ?_⟩
            · refine forall_mem_replace _ hw.1 ?_
              refine ⟨by simp, ?_⟩
              rw [hchildkeys.2, hheadw]
              simp
            · have : ((bef ++ (key, RadixNode.mk (w :: rest) (some repl) true
                  [((child.phrase.drop (commonPrefixLen child.phrase (w :: rest))).headD "",
                    RadixNode.mk (child.phrase.drop (commonPrefixLen child.phrase (w :: rest)))
                      child.replacement child.isEndOfWord child.children)]) :: aft).map
                  Prod.fst) = ((bef ++ (key, child) :: aft).map Prod.fst) := by
                simp
              rw [this]
              exact hw.2.1
            · refine forall_mem_replace _ hw.2.2 ?_
              exact hwfmid
          · -- Case 3: three-way split.
            have hkle : commonPrefixLen child.phrase (w :: rest) < (w :: rest).length := by
              have := commonPrefixLen_le_right child.phrase (w :: rest)
              omega
            have hrestne : ((w :: rest)).drop (commonPrefixLen child.phrase (w :: rest)) ≠ [] := by
              intro hc
              have := congrArg List.length hc
              simp only [List.length_drop, List.length_nil] at this
              omega
            have hne := commonPrefixLen_drop_head_ne hklt hkle
            rw [insertRecursive_case3 hfo h1 h2 hne]
            rw [WF_mk_iff]
            rw [WF_iff] at hw
            rw [hsplit] at hw
            have htakene : (w :: rest).take (commonPrefixLen child.phrase (w :: rest)) ≠ [] := by
              intro hc
              have := congrArg List.length hc
              simp only [List.length_take, List.length_nil, List.length_cons] at this
              omega
            have hwfmid : WF (RadixNode.mk
                ((w :: rest).take (commonPrefixLen child.phrase (w :: rest))) none false
                [((child.phrase.drop (commonPrefixLen child.phrase (w :: rest))).headD "",
                  RadixNode.mk (child.phrase.drop (commonPrefixLen child.phrase (w :: rest)))
                    child.replacement child.isEndOfWord child.children),
                 ((((w :: rest)).drop (commonPrefixLen child.phrase (w :: rest))).headD "",
                  RadixNode.mk (((w :: rest)).drop (commonPrefixLen child.phrase (w :: rest)))
                    (some repl) true [])]) := by
              rw [WF_mk_iff]
              refine ⟨?_, ?_, ?_⟩
              · intro kc hkc
                rcases List.mem_cons.mp hkc with rfl | hm'
                · exact ⟨hdropne, rfl⟩
                · rcases List.mem_cons.mp hm' with rfl | hm''
                  · exact ⟨hrestne, rfl⟩
                  · simp at hm''
              · simp only [List.map_cons, List.map_nil]
                exact List.nodup_cons.mpr ⟨by simpa using hne, List.nodup_singleton _⟩
              · intro kc hkc
                rcases List.mem_cons.mp hkc with rfl | hm'
                · rw [WF_mk_iff]
                  rw [WF_iff] at hchildwf
                  simpa using hchildwf
                · rcases List.mem_cons.mp hm' with rfl | hm''
                  · exact WF_of_no_children _ _ _
                  · simp at hm''
            refine ⟨?_, ?_, ?_⟩
            · refine forall_mem_replace _ hw.1 ?_
              refine ⟨htakene, ?_⟩
              rw [hchildkeys.2, hheadw]
              have hne0 : commonPrefixLen child.phrase (w :: rest) ≠ 0 := by omega
              rcases hk0 : commonPrefixLen child.phrase (w :: rest) with _ | m
              · exact absurd hk0 hne0
              · simp
            · have : ((bef ++ (key, RadixNode.mk
                  ((w :: rest).take (commonPrefixLen child.phrase (w :: rest))) none false
                  [((child.phrase.drop (commonPrefixLen child.phrase (w :: rest))).headD "",
                    RadixNode.mk (child.phrase.drop (commonPrefixLen child.phrase (w :: rest)))
                      child.replacement child.isEndOfWord child.children),
                   ((((w :: rest)).drop (commonPrefixLen child.phrase (w :: rest))).headD "",
                    RadixNode.mk (((w :: rest)).drop (commonPrefixLen child.phrase (w :: rest)))
                      (some repl) true [])]) :: aft).map Prod.fst) =
                  ((bef ++ (key, child) :: aft).map Prod.fst) := by
                simp
              rw [this]
              exact hw.2.1
            · refine forall_mem_replace _ hw.2.2 ?_
              exact hwfmid

/-- Well-formedness is preserved by `insertRecursive`. -/
theorem WF_insertRecursive {t : RadixNode} (hw : WF t) (rem : List String) (repl : String) :
    WF (insertRecursive t rem repl) :=
  WF_insertRecursive_aux rem.length rem le_rfl t hw repl

/-- Well-formedness is preserved by `insert`. -/
theorem WF_insert {t : RadixNode} (hw : WF t) (phrase replacement : String) :
    WF (insert t phrase replacement) :=
  WF_insertRecursive hw (tokenize phrase) replacement

/-- The empty tree is well-formed. -/
theorem WF_emptyTree : WF emptyTree :=
  WF_of_no_children _ _ _

/-- Every tree built by a sequence of insertions is well-formed. -/
theorem WF_buildTree (ps : List (String × String)) : WF (buildTree ps) := by
  suffices h : ∀ (t : RadixNode), WF t →
      WF (ps.foldl (fun t' pr => insert t' pr.1 pr.2) t) by
    exact h emptyTree WF_emptyTree
  induction ps with
  | nil => intro t hw; simpa using hw
  | cons pr rest ih =>
    intro t hw
    simp only [List.foldl_cons]
    exact ih _ (WF_insert hw pr.1 pr.2)

/-! ### How insertion updates the stored entries -/

theorem entries_eq (t : RadixNode) :
    entries t = (if t.isEndOfWord then [([], t.replacement.getD "")] else []) ++
      entriesChildren t.children := by
  rcases t with ⟨p, r, e, cs⟩
  rw [entries_mk]
  rfl

theorem blockMap_append_right (p : List String) (l1 l2 : List (List String × String)) :
    blockMap p (l1 ++ l2) = blockMap p l1 ++ blockMap p l2 := by
  simp [blockMap]

theorem blockMap_blockMap (p p' : List String) (l : List (List String × String)) :
    blockMap p (blockMap p' l) = blockMap (p ++ p') l := by
  simp [blockMap, Function.comp]

theorem blockMap_single (p : List String) (r : String) :
    blockMap p [([], r)] = [(p, r)] := by
  simp [blockMap]

theorem lookupE_single (s q : List String) (r : String) :
    lookupE [(s, r)] q = if s = q then some r else none := by
  rw [lookupE]
  split <;> rfl

theorem lookupE_end_skip (e : Bool) (x : String) (L : List (List String × String))
    {q : List String} (hq : q ≠ []) :
    lookupE ((if e then [([], x)] else []) ++ L) q = lookupE L q := by
  rcases q with _ | ⟨qh, qt⟩
  · exact absurd rfl hq
  · cases e
    · simp
    · simp [lookupE]

theorem lookupE_end_nil (e : Bool) (x : String) (L : List (List String × String))
    (h : lookupE L [] = none) :
    lookupE ((if e then [([], x)] else []) ++ L) [] = if e then some x else none := by
  cases e
  · simpa using h
  · simp [lookupE]

theorem lookupE_frame (A B B' C : List (List String × String)) (q : List String)
    (hB : lookupE B q = none) (hB' : lookupE B' q = none) :
    lookupE (A ++ (B ++ C)) q = lookupE (A ++ (B' ++ C)) q := by
  rw [lookupE_append A (B ++ C) q, lookupE_append A (B' ++ C) q,
    lookupE_append B C q, lookupE_append B' C q, hB, hB']

/-- When no child overlaps the remaining words, the first remaining word
is not a key of the children map. -/
theorem fresh_key_of_no_overlap {t : RadixNode} (hw : WF t) {w : String} {rest : List String}
    (hzero : ∀ kc ∈ t.children, commonPrefixLen kc.2.phrase (w :: rest) = 0) :
    ∀ kc ∈ t.children, kc.1 ≠ w := by
  intro kc hkc
  have h0 := hzero kc hkc
  have hk := hw.keys kc hkc
  intro hc
  have : 0 < commonPrefixLen kc.2.phrase (w :: rest) := by
    rw [commonPrefixLen_pos_iff]
    refine ⟨hk.1, by simp, ?_⟩
    rw [← hk.2, hc]
    simp
  omega

/-- Replacing the overlapping child changes no lookup whose first word
differs from the replaced key, and no lookup of the empty sequence. -/
theorem lookupSeq_replace_ne {t : RadixNode} (hw : WF t)
    {bef aft : List (String × RadixNode)} {key : String} {child : RadixNode}
    (hsplit : t.children = bef ++ (key, child) :: aft)
    {X : RadixNode} (hXp : X.phrase ≠ []) (hXh : key = X.phrase.headD "")
    {q : List String} (hq : q = [] ∨ q.headD "" ≠ key) :
    lookupSeq (RadixNode.mk t.phrase t.replacement t.isEndOfWord (bef ++ (key, X) :: aft)) q
      = lookupSeq t q := by
  have hkeysOld : ∀ kc ∈ bef ++ (key, child) :: aft,
      kc.2.phrase ≠ [] ∧ kc.1 = kc.2.phrase.headD "" := by
    rw [← hsplit]; exact hw.keys
  have hkeysNew : ∀ kc ∈ bef ++ (key, X) :: aft,
      kc.2.phrase ≠ [] ∧ kc.1 = kc.2.phrase.headD "" :=
    forall_mem_replace _ hkeysOld ⟨hXp, hXh⟩
  have hnodupNew : ((bef ++ (key, X) :: aft).map Prod.fst).Nodup := by
    have : ((bef ++ (key, X) :: aft).map Prod.fst) =
        ((bef ++ (key, child) :: aft).map Prod.fst) := by simp
    rw [this, ← hsplit]
    exact hw.nodupKeys
  rw [lookupSeq, lookupSeq, entries_eq, entries_eq]
  simp only [RadixNode.isEndOfWord_mk, RadixNode.replacement_mk, RadixNode.children_mk]
  rcases hq with rfl | hq
  · rw [lookupE_end_nil _ _ _ (lookupE_entriesChildren_nil (fun kc hkc => (hkeysNew kc hkc).1)),
      lookupE_end_nil _ _ _ (by
        rw [hsplit]
        exact lookupE_entriesChildren_nil (fun kc hkc => (hkeysOld kc hkc).1))]
  · rcases hqe : q with _ | ⟨qh, qt⟩
    · subst hqe
      rw [lookupE_end_nil _ _ _ (lookupE_entriesChildren_nil (fun kc hkc => (hkeysNew kc hkc).1)),
        lookupE_end_nil _ _ _ (by
          rw [hsplit]
          exact lookupE_entriesChildren_nil (fun kc hkc => (hkeysOld kc hkc).1))]
    · subst hqe
      have hqne : (qh :: qt) ≠ ([] : List String) := by simp
      have hXblock : lookupE (blockMap X.phrase (entries X)) (qh :: qt) = none := by
        rw [lookupE_eq_none_iff]
        intro sr hsr hc
        have hh := blockMap_key_head hXp hsr
        rw [hc] at hh
        exact hq (by rw [hh.2, ← hXh])
      have hCkey : child.phrase ≠ [] ∧ key = child.phrase.headD "" := by
        have := hkeysOld (key, child)
          (List.mem_append_right _ (List.mem_cons_self _ _))
        exact this
      have hCblock : lookupE (blockMap child.phrase (entries child)) (qh :: qt) = none := by
        rw [lookupE_eq_none_iff]
        intro sr hsr hc
        have hh := blockMap_key_head hCkey.1 hsr
        rw [hc] at hh
        exact hq (by rw [hh.2, ← hCkey.2])
      rw [lookupE_end_skip _ _ _ hqne, lookupE_end_skip _ _ _ hqne, hsplit]
      rw [entriesChildren_append, entriesChildren_append, entriesChildren_cons,
        entriesChildren_cons]
      exact lookupE_frame (entriesChildren bef) _ _ (entriesChildren aft) (qh :: qt)
        hXblock hCblock

/-- A nonempty lookup routes to the block of the child keyed by its
first word. -/
theorem lookupSeq_route {t : RadixNode} (hw : WF t) {kc0 : String × RadixNode}
    (hmem : kc0 ∈ t.children) {q : List String} (hq : q ≠ [])
    (hqh : q.headD "" = kc0.1) :
    lookupSeq t q = lookupE (blockMap kc0.2.phrase (entries kc0.2)) q := by
  rw [lookupSeq, entries_eq, lookupE_end_skip _ _ _ hq]
  exact lookupE_entriesChildren_route hw.keys hw.nodupKeys hmem hqh

/-- After replacing the overlapping child, a nonempty lookup whose first
word equals the replaced key routes to the block of the replacement. -/
theorem lookupSeq_replace_eq {t : RadixNode} (hw : WF t)
    {bef aft : List (String × RadixNode)} {key : String} {child : RadixNode}
    (hsplit : t.children = bef ++ (key, child) :: aft)
    {X : RadixNode} (hXp : X.phrase ≠ []) (hXh : key = X.phrase.headD "")
    {q : List String} (hq : q ≠ []) (hqh : q.headD "" = key) :
    lookupSeq (RadixNode.mk t.phrase t.replacement t.isEndOfWord (bef ++ (key, X) :: aft)) q
      = lookupE (blockMap X.phrase (entries X)) q := by
  have hkeysOld : ∀ kc ∈ bef ++ (key, child) :: aft,
      kc.2.phrase ≠ [] ∧ kc.1 = kc.2.phrase.headD "" := by
    rw [← hsplit]; exact hw.keys
  have hkeysNew : ∀ kc ∈ bef ++ (key, X) :: aft,
      kc.2.phrase ≠ [] ∧ kc.1 = kc.2.phrase.headD "" :=
    forall_mem_replace _ hkeysOld ⟨hXp, hXh⟩
  have hnodupNew : ((bef ++ (key, X) :: aft).map Prod.fst).Nodup := by
    have : ((bef ++ (key, X) :: aft).map Prod.fst) =
        ((bef ++ (key, child) :: aft).map Prod.fst) := by simp
    rw [this, ← hsplit]
    exact hw.nodupKeys
  rw [lookupSeq, entries_eq]
  simp only [RadixNode.isEndOfWord_mk, RadixNode.replacement_mk, RadixNode.children_mk]
  rw [lookupE_end_skip _ _ _ hq]
  exact lookupE_entriesChildren_route hkeysNew hnodupNew
    (List.mem_append_right _ (List.mem_cons_self _ _)) hqh

/-- Insertion with no overlapping child: the appended leaf adds exactly
one entry and changes nothing else. -/
theorem lookupSeq_append_leaf {t : RadixNode} (hw : WF t) {w : String} {rest : List String}
    (repl : String) (hfresh : ∀ kc ∈ t.children, kc.1 ≠ w) (q : List String) :
    lookupSeq (RadixNode.mk t.phrase t.replacement t.isEndOfWord
        (t.children ++ [(w, RadixNode.mk (w :: rest) (some repl) true [])])) q
      = if q = w :: rest then some repl else lookupSeq t q := by
  have hleaf : entries (RadixNode.mk (w :: rest) (some repl) true []) = [([], repl)] := by
    rw [entries_mk, entriesChildren_nil]
    simp
  have hnone : ∀ q' : List String, q'.headD "" = w → q' ≠ [] →
      lookupE (entriesChildren t.children) q' = none := by
    intro q' hq' hq'ne
    refine lookupE_entriesChildren_none hw.keys ?_
    intro kc hkc
    rw [hq']
    exact fun hc => hfresh kc hkc hc.symm
  rw [lookupSeq, entries_eq]
  simp only [RadixNode.isEndOfWord_mk, RadixNode.replacement_mk, RadixNode.children_mk]
  rw [entriesChildren_append, entriesChildren_cons, entriesChildren_nil, List.append_nil]
  rw [show blockMap ((w, RadixNode.mk (w :: rest) (some repl) true [])).2.phrase
      (entries ((w, RadixNode.mk (w :: rest) (some repl) true [])).2) =
      blockMap (w :: rest) (entries (RadixNode.mk (w :: rest) (some repl) true [])) from rfl]
  rw [hleaf, blockMap_single]
  rcases q with _ | ⟨qh, qt⟩
  · rw [if_neg (show ¬([] : List String) = w :: rest by simp)]
    have hin : lookupE (entriesChildren t.children ++ [(w :: rest, repl)]) [] = none := by
      rw [lookupE_append]
      rw [lookupE_entriesChildren_nil (fun kc hkc => (hw.keys kc hkc).1)]
      rw [lookupE_single, if_neg (show ¬(w :: rest) = ([] : List String) by simp)]
    rw [lookupE_end_nil _ _ _ hin, lookupSeq, entries_eq,
      lookupE_end_nil _ _ _ (lookupE_entriesChildren_nil (fun kc hkc => (hw.keys kc hkc).1))]
  · have hqne : (qh :: qt) ≠ ([] : List String) := by simp
    rw [lookupE_end_skip _ _ _ hqne, lookupE_append]
    rw [lookupSeq, entries_eq, lookupE_end_skip _ _ _ hqne]
    cases he : lookupE (entriesChildren t.children) (qh :: qt) with
    | some r =>
      have hqw : qh ≠ w := by
        intro hc
        subst hc
        rw [hnone (qh :: qt) (by simp) hqne] at he
        exact absurd he (by simp)
      rw [if_neg (show ¬(qh :: qt) = w :: rest by simp [hqw])]
    | none =>
      dsimp only
      rw [lookupE_single]
      by_cases hqr : (qh :: qt) = w :: rest
      · rw [if_pos hqr.symm, if_pos hqr]
      · rw [if_neg (fun hc => hqr hc.symm), if_neg hqr]

/-- Case 2 of insertion (the new phrase ends inside the child label):
the split adds exactly the new entry and keeps every other entry. -/
theorem lookupSeq_case2 {t : RadixNode} (hw : WF t)
    {bef aft : List (String × RadixNode)} {key : String} {child : RadixNode}
    (hsplit : t.children = bef ++ (key, child) :: aft)
    {w : String} {rest : List String} (repl : String)
    (hkey : key = child.phrase.headD "") (hheadw : child.phrase.headD "" = w)
    (hk2 : commonPrefixLen child.phrase (w :: rest) = (w :: rest).length)
    (hklt : commonPrefixLen child.phrase (w :: rest) < child.phrase.length)
    (q : List String) :
    lookupSeq (RadixNode.mk t.phrase t.replacement t.isEndOfWord
        (bef ++ (key, RadixNode.mk (w :: rest) (some repl) true
          [((child.phrase.drop (commonPrefixLen child.phrase (w :: rest))).headD "",
            RadixNode.mk (child.phrase.drop (commonPrefixLen child.phrase (w :: rest)))
              child.replacement child.isEndOfWord child.children)]) :: aft)) q
      = if q = w :: rest then some repl else lookupSeq t q := by
  have hphrase : child.phrase =
      (w :: rest) ++ child.phrase.drop (commonPrefixLen child.phrase (w :: rest)) := by
    have h1 : child.phrase.take (commonPrefixLen child.phrase (w :: rest)) = w :: rest := by
      rw [commonPrefixLen_take, hk2, List.take_length]
    calc child.phrase
        = child.phrase.take (commonPrefixLen child.phrase (w :: rest)) ++
            child.phrase.drop (commonPrefixLen child.phrase (w :: rest)) := by
          rw [List.take_append_drop]
      _ = (w :: rest) ++ child.phrase.drop (commonPrefixLen child.phrase (w :: rest)) := by
          rw [h1]
  have hsub : entries (RadixNode.mk (child.phrase.drop (commonPrefixLen child.phrase (w :: rest)))
      child.replacement child.isEndOfWord child.children) = entries child := by
    rw [entries_mk]
    exact (entries_eq child).symm
  have hXblock : blockMap (w :: rest) (entries (RadixNode.mk (w :: rest) (some repl) true
      [((child.phrase.drop (commonPrefixLen child.phrase (w :: rest))).headD "",
        RadixNode.mk (child.phrase.drop (commonPrefixLen child.phrase (w :: rest)))
          child.replacement child.isEndOfWord child.children)])) =
      (w :: rest, repl) :: blockMap child.phrase (entries child) := by
    rw [entries_mk, entriesChildren_cons, entriesChildren_nil, List.append_nil]
    rw [show (((child.phrase.drop (commonPrefixLen child.phrase (w :: rest))).headD "",
        RadixNode.mk (child.phrase.drop (commonPrefixLen child.phrase (w :: rest)))
          child.replacement child.isEndOfWord child.children) : String × RadixNode).2.phrase =
      child.phrase.drop (commonPrefixLen child.phrase (w :: rest)) from rfl]
    rw [show entries (((child.phrase.drop (commonPrefixLen child.phrase (w :: rest))).headD "",
        RadixNode.mk (child.phrase.drop (commonPrefixLen child.phrase (w :: rest)))
          child.replacement child.isEndOfWord child.children) : String × RadixNode).2 =
      entries child from hsub]
    rw [if_pos rfl]
    rw [blockMap_append_right, blockMap_single, blockMap_blockMap, ← hphrase]
    rfl
  have hkeyw : key = w := by rw [hkey, hheadw]
  rcases hq0 : q with _ | ⟨qh, qt⟩
  · rw [if_neg (by simp)]
    exact lookupSeq_replace_ne hw hsplit (by simp) (by simp [hkeyw]) (Or.inl rfl)
  · by_cases hqh : qh = w
    · subst hqh
      rw [lookupSeq_replace_eq hw hsplit (by simp) (by simp [hkeyw])
        (by simp) (by simp [hkeyw])]
      simp only [RadixNode.phrase_mk]
      rw [hXblock, lookupE]
      by_cases hqt : qt = rest
      · subst hqt
        rw [if_pos rfl, if_pos rfl]
      · rw [if_neg (show ¬(qh :: rest) = qh :: qt by
            simp only [List.cons.injEq, true_and]
            exact fun hc => hqt hc.symm),
          if_neg (show ¬(qh :: qt) = qh :: rest by
            simp only [List.cons.injEq, true_and]
            exact hqt)]
        exact (lookupSeq_route hw (show (key, child) ∈ t.children from hsplit ▸
            List.mem_append_right _ (List.mem_cons_self _ _))
          (show (qh :: qt) ≠ ([] : List String) by simp)
          (show (qh :: qt).headD "" = (key, child).1 by simp [hkeyw])).symm
    · rw [if_neg (by simp [hqh])]
      exact lookupSeq_replace_ne hw hsplit (by simp) (by simp [hkeyw])
        (Or.inr (by simp [hqh, hkeyw]))

/-- Case 3 of insertion (three-way split): the split adds exactly the
new entry and keeps every other entry. -/
theorem lookupSeq_case3 {t : RadixNode} (hw : WF t)
    {bef aft : List (String × RadixNode)} {key : String} {child : RadixNode}
    (hsplit : t.children = bef ++ (key, child) :: aft)
    {w : String} {rest : List String} (repl : String)
    (hkey : key = child.phrase.headD "") (hheadw : child.phrase.headD "" = w)
    (hkpos : 0 < commonPrefixLen child.phrase (w :: rest))
    (hk1 : commonPrefixLen child.phrase (w :: rest) ≠ child.phrase.length)
    (hk2 : commonPrefixLen child.phrase (w :: rest) ≠ (w :: rest).length)
    (q : List String) :
    lookupSeq (RadixNode.mk t.phrase t.replacement t.isEndOfWord
        (bef ++ (key, RadixNode.mk ((w :: rest).take (commonPrefixLen child.phrase (w :: rest)))
          none false
          [((child.phrase.drop (commonPrefixLen child.phrase (w :: rest))).headD "",
            RadixNode.mk (child.phrase.drop (commonPrefixLen child.phrase (w :: rest)))
              child.replacement child.isEndOfWord child.children),
           (((w :: rest).drop (commonPrefixLen child.phrase (w :: rest))).headD "",
            RadixNode.mk ((w :: rest).drop (commonPrefixLen child.phrase (w :: rest)))
              (some repl) true [])]) :: aft)) q
      = if q = w :: rest then some repl else lookupSeq t q := by
  have hklt : commonPrefixLen child.phrase (w :: rest) < child.phrase.length := by
    have := commonPrefixLen_le_left child.phrase (w :: rest)
    omega
  have hkle : commonPrefixLen child.phrase (w :: rest) < (w :: rest).length := by
    have := commonPrefixLen_le_right child.phrase (w :: rest)
    omega
  have htakene : (w :: rest).take (commonPrefixLen child.phrase (w :: rest)) ≠ [] := by
    intro hc
    have := congrArg List.length hc
    simp only [List.length_take, List.length_nil, List.length_cons] at this
    omega
  have hXh : key = ((w :: rest).take (commonPrefixLen child.phrase (w :: rest))).headD "" := by
    rcases hk0 : commonPrefixLen child.phrase (w :: rest) with _ | m
    · omega
    · simp only [List.take_succ_cons, List.headD_cons]
      rw [hkey, hheadw]
  have hsub : entries (RadixNode.mk
      (child.phrase.drop (commonPrefixLen child.phrase (w :: rest)))
      child.replacement child.isEndOfWord child.children) = entries child := by
    rw [entries_mk]
    exact (entries_eq child).symm
  have hXblock : blockMap ((w :: rest).take (commonPrefixLen child.phrase (w :: rest)))
      (entries (RadixNode.mk ((w :: rest).take (commonPrefixLen child.phrase (w :: rest)))
        none false
        [((child.phrase.drop (commonPrefixLen child.phrase (w :: rest))).headD "",
          RadixNode.mk (child.phrase.drop (commonPrefixLen child.phrase (w :: rest)))
            child.replacement child.isEndOfWord child.children),
         (((w :: rest).drop (commonPrefixLen child.phrase (w :: rest))).headD "",
          RadixNode.mk ((w :: rest).drop (commonPrefixLen child.phrase (w :: rest)))
            (some repl) true [])])) =
      blockMap child.phrase (entries child) ++ [(w :: rest, repl)] := by
    rw [entries_mk, entriesChildren_cons, entriesChildren_cons, entriesChildren_nil,
      List.append_nil]
    rw [show entries (((child.phrase.drop (commonPrefixLen child.phrase (w :: rest))).headD "",
        RadixNode.mk (child.phrase.drop (commonPrefixLen child.phrase (w :: rest)))
          child.replacement child.isEndOfWord child.children) : String × RadixNode).2 =
      entries child from hsub]
    rw [show (((child.phrase.drop (commonPrefixLen child.phrase (w :: rest))).headD "",
        RadixNode.mk (child.phrase.drop (commonPrefixLen child.phrase (w :: rest)))
          child.replacement child.isEndOfWord child.children) : String × RadixNode).2.phrase =
      child.phrase.drop (commonPrefixLen child.phrase (w :: rest)) from rfl]
    rw [show entries ((((w :: rest).drop (commonPrefixLen child.phrase (w :: rest))).headD "",
        RadixNode.mk ((w :: rest).drop (commonPrefixLen child.phrase (w :: rest)))
          (some repl) true []) : String × RadixNode).2 =
      [([], repl)] from by rw [show ((((w :: rest).drop
          (commonPrefixLen child.phrase (w :: rest))).headD "",
        RadixNode.mk ((w :: rest).drop (commonPrefixLen child.phrase (w :: rest)))
          (some repl) true []) : String × RadixNode).2 =
        RadixNode.mk ((w :: rest).drop (commonPrefixLen child.phrase (w :: rest)))
          (some repl) true [] from rfl]; rw [entries_mk, entriesChildren_nil]; simp]
    rw [show ((((w :: rest).drop (commonPrefixLen child.phrase (w :: rest))).headD "",
        RadixNode.mk ((w :: rest).drop (commonPrefixLen child.phrase (w :: rest)))
          (some repl) true []) : String × RadixNode).2.phrase =
      (w :: rest).drop (commonPrefixLen child.phrase (w :: rest)) from rfl]
    rw [if_neg (by simp)]
    rw [List.nil_append, blockMap_append_right, blockMap_blockMap, blockMap_blockMap,
      blockMap_single]
    have h1 : (w :: rest).take (commonPrefixLen child.phrase (w :: rest)) ++
        child.phrase.drop (commonPrefixLen child.phrase (w :: rest)) = child.phrase := by
      rw [← commonPrefixLen_take child.phrase (w :: rest), List.take_append_drop]
    have h2 : (w :: rest).take (commonPrefixLen child.phrase (w :: rest)) ++
        (w :: rest).drop (commonPrefixLen child.phrase (w :: rest)) = (w :: rest) := by
      rw [List.take_append_drop]
    rw [h1, h2]
  have hkeyw : key = w := by rw [hkey, hheadw]
  rcases q with _ | ⟨qh, qt⟩
  · rw [if_neg (show ¬([] : List String) = w :: rest by simp)]
    exact lookupSeq_replace_ne hw hsplit (by exact htakene) (by exact hXh) (Or.inl rfl)
  · by_cases hqh : qh = w
    · subst hqh
      rw [lookupSeq_replace_eq hw hsplit (by exact htakene) (by exact hXh)
        (show (qh :: qt) ≠ ([] : List String) by simp)
        (show (qh :: qt).headD "" = key by simp [hkeyw])]
      simp only [RadixNode.phrase_mk]
      rw [hXblock, lookupE_append]
      cases he : lookupE (blockMap child.phrase (entries child)) (qh :: qt) with
      | some r =>
        dsimp only
        have hqr : (qh :: qt) ≠ qh :: rest := by
          intro hc
          have hmem := lookupE_some_mem he
          rw [blockMap] at hmem
          simp only [List.mem_map] at hmem
          obtain ⟨ab, hab, habe⟩ := hmem
          have : qh :: qt = child.phrase ++ ab.1 := congrArg Prod.fst habe.symm
          rw [hc] at this
          have hm : phraseMatches child.phrase (qh :: rest) = true := by
            rw [phraseMatches_iff]
            exact ⟨ab.1, this⟩
          exact hk1 (commonPrefixLen_eq_left_of_matches hm)
        rw [if_neg hqr]
        exact (lookupSeq_route hw (show (key, child) ∈ t.children from hsplit ▸
            List.mem_append_right _ (List.mem_cons_self _ _))
          (show (qh :: qt) ≠ ([] : List String) by simp)
          (show (qh :: qt).headD "" = (key, child).1 by simp [hkeyw])).symm ▸ he ▸ rfl
      | none =>
        dsimp only
        rw [lookupE_single]
        by_cases hqr : (qh :: qt) = qh :: rest
        · rw [if_pos hqr.symm, if_pos hqr]
        · rw [if_neg (fun hc => hqr hc.symm), if_neg hqr]
          rw [lookupSeq_route hw (show (key, child) ∈ t.children from hsplit ▸
              List.mem_append_right _ (List.mem_cons_self _ _))
            (show (qh :: qt) ≠ ([] : List String) by simp)
            (show (qh :: qt).headD "" = (key, child).1 by simp [hkeyw])]
          exact he.symm
    · rw [if_neg (by simp [hqh])]
      exact lookupSeq_replace_ne hw hsplit (by exact htakene) (by exact hXh)
        (Or.inr (by simp [hqh, hkeyw]))

/-- Insertion of an exhausted word list marks the current node and
stores the replacement, keeping every other entry. -/
theorem lookupSeq_insertRecursive_nil (t : RadixNode) (hw : WF t) (repl : String)
    (q : List String) :
    lookupSeq (insertRecursive t [] repl) q = if q = [] then some repl else lookupSeq t q := by
  rw [insertRecursive_nil, lookupSeq, entries_eq]
  simp only [RadixNode.isEndOfWord_mk, RadixNode.replacement_mk, RadixNode.children_mk,
    if_true, Option.getD_some]
  rcases q with _ | ⟨qh, qt⟩
  · rw [if_pos rfl]
    rw [show ([([], repl)] : List (List String × String)) ++ entriesChildren t.children =
      (if true then [([], repl)] else []) ++ entriesChildren t.children from rfl]
    rw [lookupE_end_nil _ _ _ (lookupE_entriesChildren_nil (fun kc hkc => (hw.keys kc hkc).1))]
    rw [if_pos rfl]
  · have hqne : (qh :: qt) ≠ ([] : List String) := by simp
    rw [if_neg hqne]
    rw [show ([([], repl)] : List (List String × String)) ++ entriesChildren t.children =
      (if true then [([], repl)] else []) ++ entriesChildren t.children from rfl]
    rw [lookupE_end_skip _ _ _ hqne, lookupSeq, entries_eq, lookupE_end_skip _ _ _ hqne]


/-- How insertion updates the lookup function of a well-formed tree:
the inserted word sequence now maps to the new replacement and every
other word sequence keeps its previous mapping (stated with an explicit
bound on the length of the remaining words for the induction). -/
theorem lookupSeq_insertRecursive_aux :
    ∀ (n : Nat) (rem : List String), rem.length ≤ n →
      ∀ (t : RadixNode), WF t → ∀ (repl : String) (q : List String),
        lookupSeq (insertRecursive t rem repl) q =
          if q = rem then some repl else lookupSeq t q := by
  intro n
  induction n with
  | zero =>
    intro rem hlen t hw repl q
    have : rem = [] := List.length_eq_zero.mp (Nat.le_zero.mp hlen)
    subst this
    exact lookupSeq_insertRecursive_nil t hw repl q
  | succ n ih =>
    intro rem hlen t hw repl q
    cases rem with
    | nil => exact lookupSeq_insertRecursive_nil t hw repl q
    | cons w rest =>
      rcases hfo : findFirstOverlap t.children (w :: rest) with _ | ⟨⟨bef, key, child, aft⟩⟩
      · -- No overlapping child: a fresh leaf is appended.
        rw [insertRecursive_cons_none t w rest repl hfo]
        have hzero := findFirstOverlap_none hfo
        have hfresh := fresh_key_of_no_overlap hw hzero
        rw [setAssoc_of_not_mem _ hfresh]
        exact lookupSeq_append_leaf hw repl hfresh q
      · obtain ⟨hsplit, hkpos, hbef⟩ := findFirstOverlap_some hfo
        have hchildmem : (key, child) ∈ t.children := by
          rw [hsplit]
          exact List.mem_append_right _ (List.mem_cons_self _ _)
        have hchildkeys : child.phrase ≠ [] ∧ key = child.phrase.headD "" :=
          hw.keys _ hchildmem
        have hchildwf : WF child := hw.child _ hchildmem
        have hheadw : child.phrase.headD "" = w := by
          rw [commonPrefixLen_pos_iff] at hkpos
          simpa using hkpos.2.2
        have hkeyw : key = w := by rw [hchildkeys.2, hheadw]
        by_cases h1 : commonPrefixLen child.phrase (w :: rest) = child.phrase.length
        · -- Case 1: recurse into the matched child.
          rw [insertRecursive_case1 hfo h1]
          have hrem : (w :: rest) = child.phrase ++
              (w :: rest).drop (commonPrefixLen child.phrase (w :: rest)) := by
            have hm := matches_of_commonPrefixLen_eq_left h1
            have := phraseMatches_eq_append hm
            rw [← h1] at this
            exact this
          have hXp : (insertRecursive child
              ((w :: rest).drop (commonPrefixLen child.phrase (w :: rest))) repl).phrase ≠ [] := by
            rw [insertRecursive_phrase]
            exact hchildkeys.1
          have hXh : key = (insertRecursive child
              ((w :: rest).drop (commonPrefixLen child.phrase (w :: rest))) repl).phrase.headD
                "" := by
            rw [insertRecursive_phrase]
            exact hchildkeys.2
          rcases q with _ | ⟨qh, qt⟩
          · rw [if_neg (show ¬([] : List String) = w :: rest by simp)]
            exact lookupSeq_replace_ne hw hsplit hXp hXh (Or.inl rfl)
          · by_cases hqh : qh = w
            · subst hqh
              rw [lookupSeq_replace_eq hw hsplit hXp hXh
                (show (qh :: qt) ≠ ([] : List String) by simp)
                (show (qh :: qt).headD "" = key by simp [hkeyw])]
              rw [show (insertRecursive child
                  ((qh :: rest).drop (commonPrefixLen child.phrase (qh :: rest))) repl).phrase =
                child.phrase from insertRecursive_phrase child _ repl]
              have hihc : ∀ u : List String,
                  lookupSeq (insertRecursive child
                    ((qh :: rest).drop (commonPrefixLen child.phrase (qh :: rest))) repl) u =
                  if u = (qh :: rest).drop (commonPrefixLen child.phrase (qh :: rest))
                    then some repl else lookupSeq child u := by
                intro u
                refine ih _ ?_ child hchildwf repl u
                simp only [List.length_drop, List.length_cons]
                simp only [List.length_cons] at hlen
                omega
              cases hm : phraseMatches child.phrase (qh :: qt) with
              | true =>
                obtain ⟨u, hu⟩ := (phraseMatches_iff child.phrase (qh :: qt)).mp hm
                by_cases hu' : u = (qh :: rest).drop (commonPrefixLen child.phrase (qh :: rest))
                · rw [if_pos (show (qh :: qt) = qh :: rest from by
                    rw [hu, hu']
                    exact hrem.symm)]
                  rw [hu, lookupE_blockMap_append]
                  rw [show lookupE (entries (insertRecursive child
                      ((qh :: rest).drop (commonPrefixLen child.phrase (qh :: rest))) repl)) u =
                    lookupSeq (insertRecursive child
                      ((qh :: rest).drop (commonPrefixLen child.phrase (qh :: rest))) repl) u
                    from rfl]
                  rw [hihc u, if_pos hu']
                · rw [if_neg (show ¬(qh :: qt) = qh :: rest from by
                    rw [hu]
                    intro hc
                    rw [hrem] at hc
                    exact hu' (List.append_cancel_left hc))]
                  rw [lookupSeq_route hw hchildmem
                    (show (qh :: qt) ≠ ([] : List String) by simp)
                    (show (qh :: qt).headD "" = (key, child).1 by simp [hkeyw])]
                  rw [hu, lookupE_blockMap_append]
                  rw [show blockMap ((key, child)).2.phrase (entries ((key, child)).2) =
                    blockMap child.phrase (entries child) from rfl]
                  rw [lookupE_blockMap_append]
                  rw [show lookupE (entries (insertRecursive child
                      ((qh :: rest).drop (commonPrefixLen child.phrase (qh :: rest))) repl)) u =
                    lookupSeq (insertRecursive child
                      ((qh :: rest).drop (commonPrefixLen child.phrase (qh :: rest))) repl) u
                    from rfl]
                  rw [hihc u, if_neg hu']
                  rfl
              | false =>
                have hnom : ∀ u : List String, (qh :: qt) ≠ child.phrase ++ u := by
                  intro u hc
                  have hmt : phraseMatches child.phrase (qh :: qt) = true :=
                    (phraseMatches_iff child.phrase (qh :: qt)).mpr ⟨u, hc⟩
                  rw [hm] at hmt
                  exact absurd hmt (by simp)
                rw [lookupE_blockMap_nomatch _ hnom]
                rw [if_neg (show ¬(qh :: qt) = qh :: rest from by
                  intro hc
                  exact hnom ((qh :: rest).drop (commonPrefixLen child.phrase (qh :: rest)))
                    (hc.trans hrem))]
                rw [lookupSeq_route hw hchildmem
                  (show (qh :: qt) ≠ ([] : List String) by simp)
                  (show (qh :: qt).headD "" = (key, child).1 by simp [hkeyw])]
                rw [lookupE_blockMap_nomatch _ hnom]
            · rw [if_neg (by simp [hqh])]
              exact lookupSeq_replace_ne hw hsplit hXp hXh
                (Or.inr (by simp [hqh, hkeyw]))
        · have hklt : commonPrefixLen child.phrase (w :: rest) < child.phrase.length := by
            have := commonPrefixLen_le_left child.phrase (w :: rest)
            omega
          by_cases h2 : commonPrefixLen child.phrase (w :: rest) = (w :: rest).length
          · rw [insertRecursive_case2 hfo h1 h2]
            exact lookupSeq_case2 hw hsplit repl hchildkeys.2 hheadw h2 hklt q
          · have hne := commonPrefixLen_drop_head_ne hklt (by
              have := commonPrefixLen_le_right child.phrase (w :: rest)
              omega)
            rw [insertRecursive_case3 hfo h1 h2 hne]
            exact lookupSeq_case3 hw hsplit repl hchildkeys.2 hheadw hkpos h1 h2 q

/-- How insertion updates the lookup function of a well-formed tree. -/
theorem lookupSeq_insertRecursive {t : RadixNode} (hw : WF t) (rem : List String)
    (repl : String) (q : List String) :
    lookupSeq (insertRecursive t rem repl) q = if q = rem then some repl else lookupSeq t q :=
  lookupSeq_insertRecursive_aux rem.length rem le_rfl t hw repl q

/-- How `insert` updates the lookup function of a well-formed tree. -/
theorem lookupSeq_insert {t : RadixNode} (hw : WF t) (phrase replacement : String)
    (q : List String) :
    lookupSeq (insert t phrase replacement) q =
      if q = tokenize phrase then some replacement else lookupSeq t q :=
  lookupSeq_insertRecursive hw (tokenize phrase) replacement q

/-! ### Lookups in a built tree match the insertion history -/

theorem entries_emptyTree : entries emptyTree = [] := by
  rw [show emptyTree = RadixNode.mk [] none false [] from rfl, entries_mk, entriesChildren_nil]
  simp

theorem lookupSeq_emptyTree (q : List String) : lookupSeq emptyTree q = none := by
  rw [lookupSeq, entries_emptyTree, lookupE]

theorem lookupSeq_foldl_insert (ps : List (String × String)) :
    ∀ (t : RadixNode), WF t → ∀ (q : List String),
      lookupSeq (ps.foldl (fun t' pr => insert t' pr.1 pr.2) t) q =
        match lastRepl (tokHist ps) q with
        | some r => some r
        | none => lookupSeq t q := by
  induction ps with
  | nil =>
    intro t hw q
    simp only [List.foldl_nil, tokHist, List.map_nil, lastRepl]
  | cons pr rest ih =>
    intro t hw q
    simp only [List.foldl_cons]
    rw [ih _ (WF_insert hw pr.1 pr.2) q]
    rw [show tokHist (pr :: rest) = (tokenize pr.1, pr.2) :: tokHist rest from rfl]
    rw [lastRepl]
    cases lastRepl (tokHist rest) q with
    | some r => rfl
    | none =>
      dsimp only
      rw [lookupSeq_insert hw pr.1 pr.2 q]
      by_cases hq : q = tokenize pr.1
      · rw [if_pos hq, if_pos hq.symm]
      · rw [if_neg hq, if_neg (fun hc => hq hc.symm)]

/-- The lookup function of a built tree returns the most recently
inserted replacement for each tokenized phrase. -/
theorem lookupSeq_buildTree (ps : List (String × String)) (q : List String) :
    lookupSeq (buildTree ps) q = lastRepl (tokHist ps) q := by
  rw [buildTree, lookupSeq_foldl_insert ps emptyTree WF_emptyTree q]
  cases lastRepl (tokHist ps) q with
  | some r => rfl
  | none => exact lookupSeq_emptyTree q

/-! ### The entry keys of a well-formed tree are distinct -/

theorem sizeOf_child_lt {p : List String} {r : Option String} {e : Bool}
    {cs : List (String × RadixNode)} {kc : String × RadixNode} (h : kc ∈ cs) :
    sizeOf kc.2 < sizeOf (RadixNode.mk p r e cs) := by
  have h1 := List.sizeOf_lt_of_mem h
  have h2 : sizeOf kc.2 < sizeOf kc := by
    rcases kc with ⟨a, b⟩
    simp only [Prod.mk.sizeOf_spec]
    omega
  have h3 : sizeOf (RadixNode.mk p r e cs) = 1 + sizeOf p + sizeOf r + sizeOf e + sizeOf cs := by
    simp
  omega

theorem countP_eq_zero_of_none {l : List (List String × String)} {q : List String}
    (h : ∀ sr ∈ l, sr.1 ≠ q) : l.countP (fun sr => decide (sr.1 = q)) = 0 := by
  induction l with
  | nil => simp
  | cons hd tl ih =>
    rw [List.countP_cons]
    rw [ih (fun sr hsr => h sr (List.mem_cons_of_mem hd hsr))]
    simp [h hd (by simp)]

theorem entriesKeys_nodup_aux :
    ∀ (n : Nat) (t : RadixNode), sizeOf t ≤ n → WF t →
      ((entries t).map Prod.fst).Nodup := by
  intro n
  induction n with
  | zero =>
    intro t hsz
    rcases t with ⟨p, r, e, cs⟩
    intro _
    exfalso
    have : sizeOf (RadixNode.mk p r e cs) = 1 + sizeOf p + sizeOf r + sizeOf e + sizeOf cs := by
      simp
    omega
  | succ n ih =>
    intro t hsz hw
    rcases t with ⟨p, r, e, cs⟩
    rw [entries_mk, List.map_append, List.nodup_append]
    refine ⟨?_, ?_, ?_⟩
    · cases e <;> simp
    · -- The keys contributed by the children blocks are distinct.
      have hkeys := hw.keys
      have hnodup := hw.nodupKeys
      have hch := hw.child
      simp only [RadixNode.children_mk] at hkeys hnodup hch
      have hsub : ∀ kc ∈ cs, sizeOf kc.2 ≤ n := by
        intro kc hkc
        have := sizeOf_child_lt (p := p) (r := r) (e := e) hkc
        omega
      clear hsz hw
      induction cs with
      | nil => simp [entriesChildren_nil]
      | cons hd tl ihcs =>
        rw [entriesChildren_cons, List.map_append, List.nodup_append]
        refine ⟨?_, ?_, ?_⟩
        · -- Keys within one block are distinct.
          have hblock : (blockMap hd.2.phrase (entries hd.2)).map Prod.fst =
              ((entries hd.2).map Prod.fst).map (fun s => hd.2.phrase ++ s) := by
            simp [blockMap, Function.comp]
          rw [hblock]
          refine List.Nodup.map ?_ (ih hd.2 (hsub hd (by simp)) (hch hd (by simp)))
          intro a b hab
          exact List.append_cancel_left hab
        · exact ihcs (fun kc hkc => hkeys kc (List.mem_cons_of_mem hd hkc))
            (by rw [List.map_cons] at hnodup; exact (List.nodup_cons.mp hnodup).2)
            (fun kc hkc => hch kc (List.mem_cons_of_mem hd hkc))
            (fun kc hkc => hsub kc (List.mem_cons_of_mem hd hkc))
        · -- Keys of this block are disjoint from keys of later blocks.
          intro a ha hatl
          obtain ⟨sr, hsr, rfl⟩ := List.mem_map.mp ha
          obtain ⟨sr', hsr', heq⟩ := List.mem_map.mp hatl
          have h1 := blockMap_key_head (hkeys hd (by simp)).1 hsr
          -- Find which child block the second key belongs to.
          have h2 : ∃ kc ∈ tl, sr'.1 ≠ [] ∧ sr'.1.headD "" = kc.1 := by
            clear ihcs hatl
            induction tl with
            | nil => simp [entriesChildren_nil] at hsr'
            | cons hd' tl' ihtl =>
              rw [entriesChildren_cons] at hsr'
              rcases List.mem_append.mp hsr' with hm | hm
              · have := blockMap_key_head
                  (hkeys hd' (List.mem_cons_of_mem hd (by simp))).1 hm
                refine ⟨hd', by simp, this.1, ?_⟩
                rw [this.2, ← (hkeys hd' (List.mem_cons_of_mem hd (by simp))).2]
              · obtain ⟨kc, hkc, hne, hhd⟩ := ihtl
                  (fun kc hkc => hkeys kc (by
                    rcases List.mem_cons.mp hkc with rfl | hkc'
                    · simp
                    · exact List.mem_cons_of_mem hd (List.mem_cons_of_mem hd' hkc')))
                  (by
                    rw [List.map_cons, List.map_cons, List.nodup_cons, List.nodup_cons]
                      at hnodup
                    rw [List.map_cons, List.nodup_cons]
                    refine ⟨?_, hnodup.2.2⟩
                    intro hc
                    exact hnodup.1 (List.mem_cons_of_mem _ hc))
                  (fun kc hkc => hch kc (by
                    rcases List.mem_cons.mp hkc with rfl | hkc'
                    · simp
                    · exact List.mem_cons_of_mem hd (List.mem_cons_of_mem hd' hkc')))
                  (fun kc hkc => hsub kc (by
                    rcases List.mem_cons.mp hkc with rfl | hkc'
                    · simp
                    · exact List.mem_cons_of_mem hd (List.mem_cons_of_mem hd' hkc')))
                  hm
                exact ⟨kc, List.mem_cons_of_mem hd' hkc, hne, hhd⟩
          obtain ⟨kc, hkc, hne, hhd⟩ := h2
          rw [heq] at hhd
          rw [h1.2] at hhd
          rw [← (hkeys hd (by simp)).2] at hhd
          rw [List.map_cons, List.nodup_cons] at hnodup
          exact hnodup.1 (hhd ▸ List.mem_map_of_mem Prod.fst hkc)
    · -- The end entry key is empty, block keys are not.
      intro a ha hc
      cases e with
      | false => simp at ha
      | true =>
        simp only [if_true, List.map_cons, List.map_nil, List.mem_singleton] at ha
        subst ha
        obtain ⟨sr, hsr, hsre⟩ := List.mem_map.mp hc
        have hkeys := hw.keys
        simp only [RadixNode.children_mk] at hkeys
        have := entriesChildren_keys_ne_nil (fun kc hkc => (hkeys kc hkc).1) sr hsr
        exact this hsre

/-- The entry keys of a well-formed tree are distinct: each word
sequence is stored by at most one end-of-word node. -/
theorem entriesKeys_nodup {t : RadixNode} (hw : WF t) :
    ((entries t).map Prod.fst).Nodup :=
  entriesKeys_nodup_aux (sizeOf t) t le_rfl hw

theorem countP_le_one_of_nodup {l : List (List String × String)}
    (hnd : (l.map Prod.fst).Nodup) (q : List String) :
    l.countP (fun sr => decide (sr.1 = q)) ≤ 1 := by
  induction l with
  | nil => simp
  | cons hd tl ih =>
    rw [List.map_cons, List.nodup_cons] at hnd
    rw [List.countP_cons]
    by_cases hhd : hd.1 = q
    · have hzero : tl.countP (fun sr => decide (sr.1 = q)) = 0 := by
        refine countP_eq_zero_of_none ?_
        intro sr hsr hc
        exact hnd.1 (hhd ▸ hc ▸ List.mem_map_of_mem Prod.fst hsr)
      rw [hzero]
      simp [hhd]
    · have htl := ih hnd.2
      have hif : (if decide (hd.1 = q) = true then 1 else 0) = 0 := by simp [hhd]
      rw [hif]
      omega

/-- A well-formed tree has at most one end-of-word node per word
sequence. -/
theorem countKey_le_one {t : RadixNode} (hw : WF t) (q : List String) :
    countKey t q ≤ 1 := by
  rw [countKey]
  exact countP_le_one_of_nodup (entriesKeys_nodup hw) q

/-- A stored word sequence is stored by at least one end-of-word node. -/
theorem countKey_pos {t : RadixNode} {q : List String} {r : String}
    (h : lookupSeq t q = some r) : 1 ≤ countKey t q := by
  rw [countKey]
  rw [lookupSeq] at h
  have hmem := lookupE_some_mem h
  rw [show (1 : Nat) ≤ (entries t).countP (fun sr => decide (sr.1 = q)) ↔
    0 < (entries t).countP (fun sr => decide (sr.1 = q)) from Iff.rfl]
  rw [List.countP_pos]
  exact ⟨(q, r), hmem, by simp⟩

/-- A well-formed tree storing a word sequence has exactly one
end-of-word node for it. -/
theorem countKey_eq_one {t : RadixNode} (hw : WF t) {q : List String} {r : String}
    (h : lookupSeq t q = some r) : countKey t q = 1 :=
  Nat.le_antisymm (countKey_le_one hw q) (countKey_pos h)

/-! ### The longest-match search against the stored entries -/

theorem lookupSeq_nil_of_WF {t : RadixNode} (hw : WF t) :
    lookupSeq t [] = if t.isEndOfWord then some (t.replacement.getD "") else none := by
  rw [lookupSeq, entries_eq,
    lookupE_end_nil _ _ _ (lookupE_entriesChildren_nil (fun kc hkc => (hw.keys kc hkc).1))]

theorem storedPre_zero {t : RadixNode} (hw : WF t) (rest : List String) (r : String) :
    StoredPre t rest 0 r ↔ t.isEndOfWord = true ∧ r = t.replacement.getD "" := by
  rw [StoredPre, List.take_zero, lookupSeq_nil_of_WF hw]
  cases ht : t.isEndOfWord with
  | false => simp
  | true => simp [eq_comm]

theorem lookupE_entriesChildren_some {cs : List (String × RadixNode)} {q : List String}
    {r : String} (h : lookupE (entriesChildren cs) q = some r) :
    ∃ kc ∈ cs, lookupE (blockMap kc.2.phrase (entries kc.2)) q = some r := by
  induction cs with
  | nil =>
    rw [entriesChildren_nil, lookupE] at h
    exact absurd h (by simp)
  | cons hd tl ih =>
    rw [entriesChildren_cons, lookupE_append] at h
    cases hb : lookupE (blockMap hd.2.phrase (entries hd.2)) q with
    | some r' =>
      rw [hb] at h
      simp only [Option.some.injEq] at h
      exact ⟨hd, by simp, by rw [hb, h]⟩
    | none =>
      rw [hb] at h
      obtain ⟨kc, hkc, hkcb⟩ := ih h
      exact ⟨kc, List.mem_cons_of_mem hd hkc, hkcb⟩

theorem lookupE_blockMap_some {p : List String} {l : List (List String × String)}
    {q : List String} {r : String} (h : lookupE (blockMap p l) q = some r) :
    ∃ u, q = p ++ u ∧ lookupE l u = some r := by
  by_cases hm : ∃ u : List String, q = p ++ u
  · obtain ⟨u, rfl⟩ := hm
    rw [lookupE_blockMap_append] at h
    exact ⟨u, rfl, h⟩
  · rw [lookupE_blockMap_nomatch l (fun u hc => hm ⟨u, hc⟩)] at h
    exact absurd h (by simp)

theorem headD_append_left {a : List String} (b : List String) (ha : a ≠ []) (d : String) :
    (a ++ b).headD d = a.headD d := by
  cases a with
  | nil => exact absurd rfl ha
  | cons x xs => simp

theorem headD_take {rest : List String} {k : Nat} (hk : 0 < k) :
    (rest.take k).headD "" = rest.headD "" := by
  cases rest with
  | nil => simp
  | cons x xs =>
    rcases k with _ | m
    · omega
    · simp

/-- Decomposition of a positive-length stored prefix at a well-formed
node: it goes through the unique child matching the first word. -/
theorem storedPre_pos {t : RadixNode} (hw : WF t) {rest : List String} {k : Nat}
    {r : String} (hrest : rest ≠ []) (hk : 0 < k) :
    StoredPre t rest k r ↔ ∃ kc ∈ t.children, phraseMatches kc.2.phrase rest = true ∧
      kc.2.phrase.length ≤ k ∧ StoredPre kc.2 (rest.drop kc.2.phrase.length)
        (k - kc.2.phrase.length) r := by
  constructor
  · rintro ⟨hkle, hlook⟩
    have hqne : rest.take k ≠ [] := by
      cases rest with
      | nil => exact absurd rfl hrest
      | cons x xs =>
        rcases k with _ | m
        · omega
        · simp
    rw [lookupSeq, entries_eq, lookupE_end_skip _ _ _ hqne] at hlook
    obtain ⟨kc, hkc, hkcb⟩ := lookupE_entriesChildren_some hlook
    obtain ⟨u, hqu, hlu⟩ := lookupE_blockMap_some hkcb
    have hlen : (rest.take k).length = k := by
      rw [List.length_take]
      omega
    have hplen : kc.2.phrase.length ≤ k := by
      have := congrArg List.length hqu
      rw [hlen] at this
      simp only [List.length_append] at this
      omega
    have hmtake : phraseMatches kc.2.phrase (rest.take k) = true := by
      rw [phraseMatches_iff]
      exact ⟨u, hqu⟩
    have hmrest : phraseMatches kc.2.phrase rest = true := by
      rw [phraseMatches_iff]
      refine ⟨u ++ rest.drop k, ?_⟩
      calc rest = rest.take k ++ rest.drop k := (List.take_append_drop k rest).symm
        _ = (kc.2.phrase ++ u) ++ rest.drop k := by rw [hqu]
        _ = kc.2.phrase ++ (u ++ rest.drop k) := by rw [List.append_assoc]
    refine ⟨kc, hkc, hmrest, hplen, ?_⟩
    have hu : u = (rest.drop kc.2.phrase.length).take (k - kc.2.phrase.length) := by
      have h1 : (rest.take k).drop kc.2.phrase.length = u := by
        rw [hqu]
        exact List.drop_left kc.2.phrase u
      rw [← h1, List.drop_take]
    refine ⟨?_, ?_⟩
    · rw [List.length_drop]
      omega
    · rw [show lookupSeq kc.2 ((rest.drop kc.2.phrase.length).take (k - kc.2.phrase.length)) =
        lookupE (entries kc.2) ((rest.drop kc.2.phrase.length).take (k - kc.2.phrase.length))
        from rfl]
      rw [← hu]
      exact hlu
  · rintro ⟨kc, hkc, hm, hlen, hkle', hlook'⟩
    have hphr : rest = kc.2.phrase ++ rest.drop kc.2.phrase.length :=
      phraseMatches_eq_append hm
    have hplen : kc.2.phrase.length ≤ rest.length := phraseMatches_length_le hm
    have hkrest : k ≤ rest.length := by
      rw [List.length_drop] at hkle'
      omega
    have hdec : rest.take k = kc.2.phrase ++ (rest.drop kc.2.phrase.length).take
        (k - kc.2.phrase.length) := by
      conv_lhs => rw [hphr]
      rw [List.take_append_eq_append_take]
      rw [List.take_all_of_le hlen]
    have hqne : rest.take k ≠ [] := by
      cases rest with
      | nil => exact absurd rfl hrest
      | cons x xs =>
        rcases k with _ | m
        · omega
        · simp
    have hphne : kc.2.phrase ≠ [] := (hw.keys kc hkc).1
    have hhead : (rest.take k).headD "" = kc.1 := by
      rw [hdec, headD_append_left _ hphne, (hw.keys kc hkc).2]
    refine ⟨hkrest, ?_⟩
    rw [lookupSeq_route hw hkc hqne hhead, hdec, lookupE_blockMap_append]
    exact hlook'

theorem inv_congr {ml : Nat} {o : Option (Nat × String)} {P Q : Nat → String → Prop}
    (h : ∀ j r, P j r ↔ Q j r)
    (h1 : o = none → ∀ j r, ¬ P j r)
    (h2 : ∀ v r, o = some (v, r) → ∃ k, v = ml + k ∧ P k r ∧ ∀ j r', P j r' → j ≤ k) :
    (o = none → ∀ j r, ¬ Q j r) ∧
    (∀ v r, o = some (v, r) → ∃ k, v = ml + k ∧ Q k r ∧ ∀ j r', Q j r' → j ≤ k) := by
  constructor
  · intro ho j r hq
    exact h1 ho j r ((h j r).mpr hq)
  · intro v r ho
    obtain ⟨k, hk, hp, hmax⟩ := h2 v r ho
    exact ⟨k, hk, (h k r).mp hp, fun j r' hq => hmax j r' ((h j r').mpr hq)⟩

/-- Invariant of the children loop of the longest-match search: given a
best candidate that is optimal for an abstract candidate set `P`, the
loop result is optimal for `P` extended with the candidates reachable
through the remaining children. -/
theorem findChildrenLoop_spec (ws : List String) (i ml : Nat) :
    ∀ (cs : List (String × RadixNode)),
      (∀ kc ∈ cs, kc.2.phrase ≠ [] ∧
        ((findLongestMatchRecursive kc.2 ws (i + kc.2.phrase.length)
            (ml + kc.2.phrase.length) = none →
          ∀ j r, ¬ StoredPre kc.2 (ws.drop (i + kc.2.phrase.length)) j r) ∧
        (∀ v r, findLongestMatchRecursive kc.2 ws (i + kc.2.phrase.length)
            (ml + kc.2.phrase.length) = some (v, r) →
          ∃ k, v = ml + kc.2.phrase.length + k ∧
            StoredPre kc.2 (ws.drop (i + kc.2.phrase.length)) k r ∧
            ∀ j r', StoredPre kc.2 (ws.drop (i + kc.2.phrase.length)) j r' → j ≤ k))) →
      ∀ (P : Nat → String → Prop) (best : Option (Nat × String)),
        (best = none → ∀ j r, ¬ P j r) →
        (∀ v r, best = some (v, r) → ∃ k, v = ml + k ∧ P k r ∧ ∀ j r', P j r' → j ≤ k) →
        (findChildrenLoop cs ws i ml best = none → ∀ j r,
          ¬ (P j r ∨ ∃ kc ∈ cs, phraseMatches kc.2.phrase (ws.drop i) = true ∧
            kc.2.phrase.length ≤ j ∧
            StoredPre kc.2 (ws.drop (i + kc.2.phrase.length)) (j - kc.2.phrase.length) r)) ∧
        (∀ v r, findChildrenLoop cs ws i ml best = some (v, r) →
          ∃ k, v = ml + k ∧
            (P k r ∨ ∃ kc ∈ cs, phraseMatches kc.2.phrase (ws.drop i) = true ∧
              kc.2.phrase.length ≤ k ∧
              StoredPre kc.2 (ws.drop (i + kc.2.phrase.length)) (k - kc.2.phrase.length) r) ∧
            ∀ j r', (P j r' ∨ ∃ kc ∈ cs, phraseMatches kc.2.phrase (ws.drop i) = true ∧
              kc.2.phrase.length ≤ j ∧
              StoredPre kc.2 (ws.drop (i + kc.2.phrase.length)) (j - kc.2.phrase.length) r')
              → j ≤ k) := by
  intro cs
  induction cs with
  | nil =>
    intro hrec P best hnone hsome
    rw [findChildrenLoop]
    refine inv_congr ?_ hnone hsome
    intro j r
    simp
  | cons hd tl ihcs =>
    obtain ⟨hkey, child⟩ := hd
    intro hrec P best hnone hsome
    have hchild : child.phrase ≠ [] ∧
        ((findLongestMatchRecursive child ws (i + child.phrase.length)
            (ml + child.phrase.length) = none →
          ∀ j r, ¬ StoredPre child (ws.drop (i + child.phrase.length)) j r) ∧
        (∀ v r, findLongestMatchRecursive child ws (i + child.phrase.length)
            (ml + child.phrase.length) = some (v, r) →
          ∃ k, v = ml + child.phrase.length + k ∧
            StoredPre child (ws.drop (i + child.phrase.length)) k r ∧
            ∀ j r', StoredPre child (ws.drop (i + child.phrase.length)) j r' → j ≤ k)) :=
      hrec (hkey, child) (by simp)
    have hrectl : ∀ kc ∈ tl, kc.2.phrase ≠ [] ∧ _ :=
      fun kc hkc => hrec kc (List.mem_cons_of_mem _ hkc)
    have hiff : ∀ (C : (String × RadixNode) → Prop),
        (∃ kc ∈ (hkey, child) :: tl, C kc) ↔ C (hkey, child) ∨ ∃ kc ∈ tl, C kc := by
      intro C
      constructor
      · rintro ⟨kc, hkc, hC⟩
        rcases List.mem_cons.mp hkc with rfl | hm
        · exact Or.inl hC
        · exact Or.inr ⟨kc, hm, hC⟩
      · rintro (hC | ⟨kc, hm, hC⟩)
        · exact ⟨_, by simp, hC⟩
        · exact ⟨kc, List.mem_cons_of_mem _ hm, hC⟩
    rw [findChildrenLoop]
    by_cases hguard : ws.length < i + child.phrase.length
    · -- The child phrase would extend beyond the input: no candidate
      -- can go through it.
      rw [if_pos hguard]
      have hnc : ∀ j r, ¬ (phraseMatches child.phrase (ws.drop i) = true ∧
          child.phrase.length ≤ j ∧
          StoredPre child (ws.drop (i + child.phrase.length)) (j - child.phrase.length) r) := by
        rintro j r ⟨hm, hlj, hsp⟩
        have h1 := phraseMatches_length_le hm
        rw [List.length_drop] at h1
        have h2 : child.phrase.length ≠ 0 := by
          intro hc
          exact hchild.1 (List.length_eq_zero.mp hc)
        omega
      obtain ⟨hl, hr⟩ := ihcs hrectl P best hnone hsome
      refine inv_congr ?_ hl hr
      intro j r
      rw [hiff]
      constructor
      · rintro (hp | hc)
        · exact Or.inl hp
        · exact Or.inr (Or.inr hc)
      · rintro (hp | hc | hc)
        · exact Or.inl hp
        · exact absurd hc (hnc j r)
        · exact Or.inr hc
    · rw [if_neg hguard]
      cases hm : phraseMatches child.phrase (List.drop i ws) with
      | false =>
        -- The child phrase does not match: no candidate goes through it.
        have hnc : ∀ j r, ¬ (phraseMatches child.phrase (ws.drop i) = true ∧
            child.phrase.length ≤ j ∧
            StoredPre child (ws.drop (i + child.phrase.length)) (j - child.phrase.length) r) := by
          rintro j r ⟨hmt, hlj, hsp⟩
          rw [hm] at hmt
          exact absurd hmt (by simp)
        rw [if_neg (by simp [hm])]
        obtain ⟨hl, hr⟩ := ihcs hrectl P best hnone hsome
        refine inv_congr ?_ hl hr
        intro j r
        rw [hiff]
        constructor
        · rintro (hp | hc)
          · exact Or.inl hp
          · exact Or.inr (Or.inr hc)
        · rintro (hp | hc | hc)
          · exact Or.inl hp
          · exact absurd hc (hnc j r)
          · exact Or.inr hc
      | true =>
        rw [if_pos (by simp [hm])]
        cases hrm : findLongestMatchRecursive child ws (i + child.phrase.length)
            (ml + child.phrase.length) with
        | none =>
          -- The recursion finds nothing below this child.
          have hnc : ∀ j r, ¬ (phraseMatches child.phrase (ws.drop i) = true ∧
              child.phrase.length ≤ j ∧
              StoredPre child (ws.drop (i + child.phrase.length)) (j - child.phrase.length) r) := by
            rintro j r ⟨hmt, hlj, hsp⟩
            exact hchild.2.1 hrm _ _ hsp
          obtain ⟨hl, hr⟩ := ihcs hrectl P best hnone hsome
          refine inv_congr ?_ hl hr
          intro j r
          rw [hiff]
          constructor
          · rintro (hp | hc)
            · exact Or.inl hp
            · exact Or.inr (Or.inr hc)
          · rintro (hp | hc | hc)
            · exact Or.inl hp
            · exact absurd hc (hnc j r)
            · exact Or.inr hc
        | some m =>
          obtain ⟨mv, mr⟩ := m
          obtain ⟨k0, hk0, hsp0, hmax0⟩ := hchild.2.2 mv mr hrm
          -- The updated best is optimal for P extended with the
          -- candidates through this child.
          have hcand : ∀ j r, (P j r ∨ (phraseMatches child.phrase (ws.drop i) = true ∧
              child.phrase.length ≤ j ∧
              StoredPre child (ws.drop (i + child.phrase.length))
                (j - child.phrase.length) r)) →
              ∀ kb, (∀ j' r', P j' r' → j' ≤ kb) →
              child.phrase.length + k0 ≤ kb → j ≤ kb := by
            rintro j r (hp | ⟨hmt, hlj, hsp⟩) kb hpmax hcmp
            · exact hpmax j r hp
            · have := hmax0 _ _ hsp
              omega
          cases best with
          | none =>
            have hnp := hnone rfl
            have hinv1 : (some (mv, mr) : Option (Nat × String)) = none →
                ∀ j r, ¬ (P j r ∨ (phraseMatches child.phrase (ws.drop i) = true ∧
                  child.phrase.length ≤ j ∧
                  StoredPre child (ws.drop (i + child.phrase.length))
                    (j - child.phrase.length) r)) := by
              intro hc
              exact absurd hc (by simp)
            have hinv2 : ∀ v r, (some (mv, mr) : Option (Nat × String)) = some (v, r) →
                ∃ k, v = ml + k ∧ (P k r ∨ (phraseMatches child.phrase (ws.drop i) = true ∧
                  child.phrase.length ≤ k ∧
                  StoredPre child (ws.drop (i + child.phrase.length))
                    (k - child.phrase.length) r)) ∧
                ∀ j r', (P j r' ∨ (phraseMatches child.phrase (ws.drop i) = true ∧
                  child.phrase.length ≤ j ∧
                  StoredPre child (ws.drop (i + child.phrase.length))
                    (j - child.phrase.length) r')) → j ≤ k := by
              intro v r hv
              simp only [Option.some.injEq, Prod.mk.injEq] at hv
              obtain ⟨hv1, hv2⟩ := hv
              subst hv1; subst hv2
              refine ⟨child.phrase.length + k0, by omega, ?_, ?_⟩
              · refine Or.inr ⟨hm, by omega, ?_⟩
                have : child.phrase.length + k0 - child.phrase.length = k0 := by omega
                rw [this]
                exact hsp0
              · rintro j r' (hp | ⟨hmt, hlj, hsp⟩)
                · exact absurd hp (hnp j r')
                · have := hmax0 _ _ hsp
                  omega
            obtain ⟨hl, hr⟩ := ihcs hrectl _ (some (mv, mr)) hinv1 hinv2
            refine inv_congr ?_ hl hr
            intro j r
            rw [hiff]
            constructor
            · rintro ((hp | hc) | hc)
              · exact Or.inl hp
              · exact Or.inr (Or.inl hc)
              · exact Or.inr (Or.inr hc)
            · rintro (hp | hc | hc)
              · exact Or.inl (Or.inl hp)
              · exact Or.inl (Or.inr hc)
              · exact Or.inr hc
          | some b =>
            obtain ⟨bv, br⟩ := b
            obtain ⟨kb, hkb, hpb, hmaxb⟩ := hsome bv br rfl
            dsimp only
            by_cases hcmp : bv < mv
            · rw [if_pos hcmp]
              have hinv2 : ∀ v r, (some (mv, mr) : Option (Nat × String)) = some (v, r) →
                  ∃ k, v = ml + k ∧ (P k r ∨ (phraseMatches child.phrase (ws.drop i) = true ∧
                    child.phrase.length ≤ k ∧
                    StoredPre child (ws.drop (i + child.phrase.length))
                      (k - child.phrase.length) r)) ∧
                  ∀ j r', (P j r' ∨ (phraseMatches child.phrase (ws.drop i) = true ∧
                    child.phrase.length ≤ j ∧
                    StoredPre child (ws.drop (i + child.phrase.length))
                      (j - child.phrase.length) r')) → j ≤ k := by
                intro v r hv
                simp only [Option.some.injEq, Prod.mk.injEq] at hv
                obtain ⟨hv1, hv2⟩ := hv
                subst hv1; subst hv2
                refine ⟨child.phrase.length + k0, by omega, ?_, ?_⟩
                · refine Or.inr ⟨hm, by omega, ?_⟩
                  have : child.phrase.length + k0 - child.phrase.length = k0 := by omega
                  rw [this]
                  exact hsp0
                · rintro j r' (hp | ⟨hmt, hlj, hsp⟩)
                  · have := hmaxb j r' hp
                    omega
                  · have := hmax0 _ _ hsp
                    omega
              obtain ⟨hl, hr⟩ := ihcs hrectl _ (some (mv, mr))
                (by intro hc; exact absurd hc (by simp)) hinv2
              refine inv_congr ?_ hl hr
              intro j r
              rw [hiff]
              constructor
              · rintro ((hp | hc) | hc)
                · exact Or.inl hp
                · exact Or.inr (Or.inl hc)
                · exact Or.inr (Or.inr hc)
              · rintro (hp | hc | hc)
                · exact Or.inl (Or.inl hp)
                · exact Or.inl (Or.inr hc)
                · exact Or.inr hc
            · rw [if_neg hcmp]
              have hinv2 : ∀ v r, (some (bv, br) : Option (Nat × String)) = some (v, r) →
                  ∃ k, v = ml + k ∧ (P k r ∨ (phraseMatches child.phrase (ws.drop i) = true ∧
                    child.phrase.length ≤ k ∧
                    StoredPre child (ws.drop (i + child.phrase.length))
                      (k - child.phrase.length) r)) ∧
                  ∀ j r', (P j r' ∨ (phraseMatches child.phrase (ws.drop i) = true ∧
                    child.phrase.length ≤ j ∧
                    StoredPre child (ws.drop (i + child.phrase.length))
                      (j - child.phrase.length) r')) → j ≤ k := by
                intro v r hv
                simp only [Option.some.injEq, Prod.mk.injEq] at hv
                obtain ⟨hv1, hv2⟩ := hv
                subst hv1; subst hv2
                refine ⟨kb, hkb, Or.inl hpb, ?_⟩
                rintro j r' (hp | ⟨hmt, hlj, hsp⟩)
                · exact hmaxb j r' hp
                · have := hmax0 _ _ hsp
                  omega
              obtain ⟨hl, hr⟩ := ihcs hrectl _ (some (bv, br))
                (by intro hc; exact absurd hc (by simp)) hinv2
              refine inv_congr ?_ hl hr
              intro j r
              rw [hiff]
              constructor
              · rintro ((hp | hc) | hc)
                · exact Or.inl hp
                · exact Or.inr (Or.inl hc)
                · exact Or.inr (Or.inr hc)
              · rintro (hp | hc | hc)
                · exact Or.inl (Or.inl hp)
                · exact Or.inl (Or.inr hc)
                · exact Or.inr hc

/-- Full characterization of the longest-match search on a well-formed
tree: the result is exactly the longest stored prefix of the words from
the current index, offset by the accumulated match length. -/
theorem findRec_spec_aux :
    ∀ (n : Nat) (t : RadixNode), sizeOf t ≤ n → WF t →
      ∀ (ws : List String) (i ml : Nat),
        (findLongestMatchRecursive t ws i ml = none →
          ∀ j r, ¬ StoredPre t (ws.drop i) j r) ∧
        (∀ v r, findLongestMatchRecursive t ws i ml = some (v, r) →
          ∃ k, v = ml + k ∧ StoredPre t (ws.drop i) k r ∧
            ∀ j r', StoredPre t (ws.drop i) j r' → j ≤ k) := by
  intro n
  induction n with
  | zero =>
    intro t hsz
    rcases t with ⟨p, rep, e, cs⟩
    intro _ _ _ _
    exfalso
    have : sizeOf (RadixNode.mk p rep e cs) = 1 + sizeOf p + sizeOf rep + sizeOf e + sizeOf cs := by
      simp
    omega
  | succ n ih =>
    intro t hsz hw ws i ml
    rcases t with ⟨p, rep, e, cs⟩
    rw [findLongestMatchRecursive]
    by_cases hi : ws.length ≤ i
    · rw [if_pos hi]
      have hrest : ws.drop i = [] := List.drop_eq_nil_of_le hi
      cases e with
      | true =>
        constructor
        · intro hc
          exact absurd hc (by simp)
        · intro v r hv
          simp only [if_true, Option.some.injEq, Prod.mk.injEq] at hv
          obtain ⟨hv1, hv2⟩ := hv
          subst hv1
          subst hv2
          refine ⟨0, by omega, ?_, ?_⟩
          · rw [hrest]
            exact (storedPre_zero hw [] _).mpr ⟨rfl, rfl⟩
          · intro j r' hsp
            rw [hrest] at hsp
            have := hsp.1
            simpa using this
      | false =>
        constructor
        · intro _ j r hsp
          rw [hrest] at hsp
          have hj : j = 0 := by
            have := hsp.1
            simpa using this
          subst hj
          have := (storedPre_zero hw [] r).mp hsp
          simp at this
        · intro v r hv
          exact absurd hv (by simp)
    · rw [if_neg hi]
      push_neg at hi
      have hrestne : ws.drop i ≠ [] := by
        intro hc
        have := List.drop_eq_nil_iff.mp hc
        omega
      have hrec : ∀ kc ∈ cs, kc.2.phrase ≠ [] ∧
          ((findLongestMatchRecursive kc.2 ws (i + kc.2.phrase.length)
              (ml + kc.2.phrase.length) = none →
            ∀ j r, ¬ StoredPre kc.2 (ws.drop (i + kc.2.phrase.length)) j r) ∧
          (∀ v r, findLongestMatchRecursive kc.2 ws (i + kc.2.phrase.length)
              (ml + kc.2.phrase.length) = some (v, r) →
            ∃ k, v = ml + kc.2.phrase.length + k ∧
              StoredPre kc.2 (ws.drop (i + kc.2.phrase.length)) k r ∧
              ∀ j r', StoredPre kc.2 (ws.drop (i + kc.2.phrase.length)) j r' → j ≤ k)) := by
        intro kc hkc
        refine ⟨(hw.keys kc hkc).1, ?_⟩
        refine ih kc.2 ?_ (hw.child kc hkc) ws (i + kc.2.phrase.length)
          (ml + kc.2.phrase.length)
        have := sizeOf_child_lt (p := p) (r := rep) (e := e) hkc
        omega
      have hnone0 : (if e = true then some (ml, rep.getD "") else none) = none →
          ∀ j r, ¬ (j = 0 ∧ e = true ∧ r = rep.getD "") := by
        intro hb j r hp
        rw [hp.2.1] at hb
        simp at hb
      have hsome0 : ∀ v r, (if e = true then some (ml, rep.getD "") else none) = some (v, r) →
          ∃ k, v = ml + k ∧ (k = 0 ∧ e = true ∧ r = rep.getD "") ∧
            ∀ j r', (j = 0 ∧ e = true ∧ r' = rep.getD "") → j ≤ k := by
        intro v r hb
        cases e with
        | false => exact absurd hb (by simp)
        | true =>
          simp only [if_true, Option.some.injEq, Prod.mk.injEq] at hb
          obtain ⟨hb1, hb2⟩ := hb
          subst hb1
          subst hb2
          exact ⟨0, by omega, ⟨rfl, rfl, rfl⟩, fun j r' hp => by omega⟩
      have hloop := findChildrenLoop_spec ws i ml cs hrec
        (fun j r => j = 0 ∧ e = true ∧ r = rep.getD "")
        (if e = true then some (ml, rep.getD "") else none) hnone0 hsome0
      refine inv_congr ?_ hloop.1 hloop.2
      intro j r
      constructor
      · rintro (⟨hj, he, hr⟩ | ⟨kc, hkc, hm, hlen, hsp⟩)
        · subst hj
          refine (storedPre_zero hw (ws.drop i) r).mpr ?_
          exact ⟨he, hr⟩
        · have hjpos : 0 < j := by
            have h2 : kc.2.phrase.length ≠ 0 := by
              intro hc
              exact (hw.keys kc hkc).1 (List.length_eq_zero.mp hc)
            omega
          refine (storedPre_pos hw hrestne hjpos).mpr ?_
          refine ⟨kc, hkc, hm, hlen, ?_⟩
          rw [List.drop_drop]
          exact hsp
      · intro hsp
        rcases Nat.eq_zero_or_pos j with rfl | hjpos
        · exact Or.inl ⟨rfl, ((storedPre_zero hw (ws.drop i) r).mp hsp).1,
            ((storedPre_zero hw (ws.drop i) r).mp hsp).2⟩
        · obtain ⟨kc, hkc, hm, hlen, hsp'⟩ := (storedPre_pos hw hrestne hjpos).mp hsp
          refine Or.inr ⟨kc, hkc, hm, hlen, ?_⟩
          rw [List.drop_drop] at hsp'
          exact hsp'

/-- Characterization of `findLongestMatch` on a well-formed tree. -/
theorem findLongestMatch_spec {t : RadixNode} (hw : WF t) (ws : List String)
    (startIndex : Nat) :
    (findLongestMatch t ws startIndex = none →
      ∀ j r, ¬ StoredPre t (ws.drop startIndex) j r) ∧
    (∀ v r, findLongestMatch t ws startIndex = some (v, r) →
      StoredPre t (ws.drop startIndex) v r ∧
        ∀ j r', StoredPre t (ws.drop startIndex) j r' → j ≤ v) := by
  have h := findRec_spec_aux (sizeOf t) t le_rfl hw ws startIndex 0
  constructor
  · exact h.1
  · intro v r hv
    obtain ⟨k, hk, hsp, hmax⟩ := h.2 v r hv
    have : v = k := by omega
    subst this
    exact ⟨hsp, hmax⟩

/-- Two well-formed trees with the same lookup function agree on every
longest-match query. -/
theorem findLongestMatch_ext {t t' : RadixNode} (hw : WF t) (hw' : WF t')
    (hl : ∀ s, lookupSeq t s = lookupSeq t' s) (ws : List String) (i : Nat) :
    findLongestMatch t ws i = findLongestMatch t' ws i := by
  have h := findLongestMatch_spec hw ws i
  have h' := findLongestMatch_spec hw' ws i
  have hsp : ∀ j r, StoredPre t (ws.drop i) j r ↔ StoredPre t' (ws.drop i) j r := by
    intro j r
    rw [StoredPre, StoredPre, hl]
  cases hft : findLongestMatch t ws i with
  | none =>
    cases hft' : findLongestMatch t' ws i with
    | none => rfl
    | some vr =>
      obtain ⟨v, r⟩ := vr
      obtain ⟨hspv', hmax'⟩ := h'.2 v r hft'
      exact absurd ((hsp v r).mpr hspv') (h.1 hft v r)
  | some vr =>
    obtain ⟨v, r⟩ := vr
    obtain ⟨hspv, hmaxv⟩ := h.2 v r hft
    cases hft' : findLongestMatch t' ws i with
    | none => exact absurd ((hsp v r).mp hspv) (h'.1 hft' v r)
    | some vr' =>
      obtain ⟨v', r'⟩ := vr'
      obtain ⟨hspv', hmaxv'⟩ := h'.2 v' r' hft'
      have hve : v = v' :=
        Nat.le_antisymm (hmaxv' v r ((hsp v r).mp hspv))
          (hmaxv v' r' ((hsp v' r').mpr hspv'))
      subst hve
      have h1 : lookupSeq t ((ws.drop i).take v) = some r := hspv.2
      have h2 : lookupSeq t' ((ws.drop i).take v) = some r' := hspv'.2
      rw [hl] at h1
      rw [h1] at h2
      simp only [Option.some.injEq] at h2
      rw [h2]

/-- A well-formed tree satisfies the distinct-first-words property of
the children maps, at every node. -/
theorem distinctHeads_of_WF_aux :
    ∀ (n : Nat) (t : RadixNode), sizeOf t ≤ n → WF t → DistinctHeads t := by
  intro n
  induction n with
  | zero =>
    intro t hsz
    rcases t with ⟨p, rep, e, cs⟩
    intro _
    exfalso
    have : sizeOf (RadixNode.mk p rep e cs) = 1 + sizeOf p + sizeOf rep + sizeOf e + sizeOf cs := by
      simp
    omega
  | succ n ih =>
    intro t hsz hw
    rcases t with ⟨p, rep, e, cs⟩
    refine DistinctHeads.mk _ ?_ ?_
    · have : (RadixNode.mk p rep e cs).children.map (fun kc => kc.2.phrase.headD "") =
          (RadixNode.mk p rep e cs).children.map Prod.fst := by
        refine List.map_congr_left ?_
        intro kc hkc
        exact ((hw.keys kc hkc).2).symm
      rw [this]
      exact hw.nodupKeys
    · intro kc hkc
      simp only [RadixNode.children_mk] at hkc
      refine ih kc.2 ?_ (hw.child kc hkc)
      have := sizeOf_child_lt (p := p) (r := rep) (e := e) hkc
      omega

/-! ### The batch fold-back pairs responses with requests by position -/

theorem foldTranslations_eq_zip :
    ∀ (resps reqs : List String) (idx : Nat) (t : RadixNode) (d : List (String × String)),
      foldTranslations reqs (t, d) resps idx =
        (((reqs.drop idx).zip resps).foldl (fun t' pr => insert t' pr.1 pr.2) t,
         ((reqs.drop idx).zip resps).foldl (fun d' pr => setAssoc d' pr.1 pr.2) d) := by
  intro resps
  induction resps with
  | nil =>
    intro reqs idx t d
    rw [foldTranslations]
    simp
  | cons translation rest ih =>
    intro reqs idx t d
    rw [foldTranslations]
    cases hg : reqs.get? idx with
    | none =>
      have hlen : reqs.length ≤ idx := by
        by_contra hc
        push_neg at hc
        rw [List.get?_eq_get hc] at hg
        exact absurd hg (by simp)
      have hdrop : reqs.drop idx = [] := List.drop_eq_nil_of_le hlen
      have hdrop' : reqs.drop (idx + 1) = [] := List.drop_eq_nil_of_le (by omega)
      rw [ih reqs (idx + 1) t d, hdrop, hdrop']
      simp
    | some w =>
      have hlt : idx < reqs.length := by
        by_contra hc
        push_neg at hc
        rw [List.get?_eq_none.mpr hc] at hg
        exact absurd hg (by simp)
      have hget : reqs.get ⟨idx, hlt⟩ = w := by
        have h1 : some (reqs.get ⟨idx, hlt⟩) = some w := by
          rw [← List.get?_eq_get hlt]
          exact hg
        exact Option.some.inj h1
      have hdrop : reqs.drop idx = w :: reqs.drop (idx + 1) := by
        rw [List.drop_eq_get_cons hlt, hget]
      dsimp only
      rw [ih reqs (idx + 1) (insert t w translation) (setAssoc d w translation), hdrop]
      simp

/-- The batch fold-back of `handleDocumentUpdate` applies exactly the
position-wise pairs `reqs.zip resps`: a response list shorter than the
request list is applied partially (the first `resps.length` requests),
and requests beyond the response list are skipped. -/
theorem applyBatch_eq_zip (t : RadixNode) (d : List (String × String))
    (reqs resps : List String) :
    applyBatch t d reqs resps =
      ((reqs.zip resps).foldl (fun t' pr => insert t' pr.1 pr.2) t,
       (reqs.zip resps).foldl (fun d' pr => setAssoc d' pr.1 pr.2) d) := by
  rw [applyBatch]
  by_cases h : resps.length = 0
  · rw [if_pos h]
    have : resps = [] := List.length_eq_zero.mp h
    subst this
    simp
  · rw [if_neg h]
    have := foldTranslations_eq_zip resps reqs 0 t d
    simpa using this

/-! ### The heap-threaded search never writes to the heap -/

theorem findLongestMatchRecursiveH_heap :
    ∀ (fuel : Nat) (h : HeapH) (idx : Nat) (words : List String) (index ml : Nat),
      (findLongestMatchRecursiveH fuel h idx words index ml).2 = h := by
  intro fuel
  induction fuel with
  | zero =>
    intro h idx words index ml
    rw [findLongestMatchRecursiveH]
  | succ n ihf =>
    intro h idx words index ml
    have hloop : ∀ (cs : List (String × Nat)) (index' ml' : Nat)
        (best : Option (Nat × String)),
        (findChildrenLoopH n h cs words index' ml' best).2 = h := by
      intro cs
      induction cs with
      | nil =>
        intro index' ml' best
        rw [findChildrenLoopH]
      | cons hd tl ihl =>
        obtain ⟨key, ci⟩ := hd
        intro index' ml' best
        rw [findChildrenLoopH]
        cases hgc : List.get? h ci with
        | none => exact ihl index' ml' best
        | some child =>
          dsimp only
          by_cases hg : words.length < index' + child.phrase.length
          · rw [if_pos hg]
            exact ihl index' ml' best
          · rw [if_neg hg]
            cases hpm : phraseMatches child.phrase (words.drop index') with
            | false =>
              rw [if_neg (by simp [hpm])]
              exact ihl index' ml' best
            | true =>
              rw [if_pos (by simp [hpm])]
              rcases hrc : findLongestMatchRecursiveH n h ci words
                  (index' + child.phrase.length) (ml' + child.phrase.length) with ⟨m, h'⟩
              have hh' : h' = h := by
                have := ihf h ci words (index' + child.phrase.length)
                  (ml' + child.phrase.length)
                rw [hrc] at this
                exact this
              subst hh'
              exact ihl index' ml' _
    rw [findLongestMatchRecursiveH]
    cases hgn : List.get? h idx with
    | none => rfl
    | some node =>
      dsimp only
      by_cases hi : words.length ≤ index
      · rw [if_pos hi]
      · rw [if_neg hi]
        exact hloop node.children index ml _

/-! ### The persisted dictionary as a last-write-wins map -/

theorem keys_setAssoc_mem {β : Type} {d : List (String × β)} {k : String} {v : β}
    {x : String} (h : x ∈ (setAssoc d k v).map Prod.fst) :
    x ∈ d.map Prod.fst ∨ x = k := by
  induction d with
  | nil =>
    rw [setAssoc] at h
    simp at h
    exact Or.inr h
  | cons hd tl ih =>
    obtain ⟨k0, v0⟩ := hd
    rw [setAssoc] at h
    by_cases hk : k0 = k
    · rw [if_pos hk] at h
      simp only [List.map_cons, List.mem_cons] at h
      rcases h with rfl | h
      · exact Or.inr rfl
      · exact Or.inl (by simp [h])
    · rw [if_neg hk] at h
      simp only [List.map_cons, List.mem_cons] at h
      rcases h with rfl | h
      · exact Or.inl (by simp)
      · rcases ih h with h' | h'
        · exact Or.inl (by simp [h'])
        · exact Or.inr h'

theorem setAssoc_nodup_keys {β : Type} {d : List (String × β)} {k : String} {v : β}
    (h : (d.map Prod.fst).Nodup) : ((setAssoc d k v).map Prod.fst).Nodup := by
  induction d with
  | nil =>
    rw [setAssoc]
    simp
  | cons hd tl ih =>
    obtain ⟨k0, v0⟩ := hd
    rw [List.map_cons, List.nodup_cons] at h
    rw [setAssoc]
    by_cases hk : k0 = k
    · rw [if_pos hk]
      rw [List.map_cons, List.nodup_cons]
      exact ⟨hk ▸ h.1, h.2⟩
    · rw [if_neg hk]
      rw [List.map_cons, List.nodup_cons]
      refine ⟨?_, ih h.2⟩
      intro hc
      rcases keys_setAssoc_mem hc with h' | h'
      · exact h.1 h'
      · exact hk h'

theorem lastValStr_eq_none {L : List (String × String)} {p : String}
    (h : ∀ kv ∈ L, kv.1 ≠ p) : lastValStr L p = none := by
  induction L with
  | nil => rw [lastValStr]
  | cons hd tl ih =>
    rw [lastValStr, ih (fun kv hkv => h kv (List.mem_cons_of_mem hd hkv))]
    rw [if_neg (h hd (by simp))]

theorem lastValStr_setAssoc {d : List (String × String)} {k : String} {v : String}
    (hnd : (d.map Prod.fst).Nodup) (p : String) :
    lastValStr (setAssoc d k v) p = if k = p then some v else lastValStr d p := by
  induction d with
  | nil =>
    rw [setAssoc]
    simp only [lastValStr]
  | cons hd tl ih =>
    obtain ⟨k0, v0⟩ := hd
    rw [List.map_cons, List.nodup_cons] at hnd
    rw [setAssoc]
    by_cases hk : k0 = k
    · subst hk
      rw [if_pos rfl]
      by_cases hp : k0 = p
      · subst hp
        have htl : lastValStr tl k0 = none := by
          refine lastValStr_eq_none ?_
          intro kv hkv hc
          have hmem := List.mem_map_of_mem Prod.fst hkv
          rw [hc] at hmem
          exact hnd.1 hmem
        rw [lastValStr, htl]
        simp
      · rw [lastValStr, lastValStr]
        cases lastValStr tl p with
        | some r => simp [hp]
        | none => simp [hp]
    · rw [if_neg hk]
      rw [lastValStr, ih hnd.2]
      by_cases hkp : k = p
      · rw [if_pos hkp, if_pos hkp]
      · rw [if_neg hkp, if_neg hkp]
        rw [lastValStr]

theorem lastValStr_some_mem {L : List (String × String)} {p : String} {v : String}
    (h : lastValStr L p = some v) : (p, v) ∈ L := by
  induction L with
  | nil =>
    rw [lastValStr] at h
    exact absurd h (by simp)
  | cons hd tl ih =>
    rw [lastValStr] at h
    cases hlv : lastValStr tl p with
    | some r =>
      rw [hlv] at h
      simp only [Option.some.injEq] at h
      subst h
      exact List.mem_cons_of_mem _ (ih hlv)
    | none =>
      rw [hlv] at h
      dsimp only at h
      split at h
      · rename_i hd0
        simp only [Option.some.injEq] at h
        subst h
        obtain ⟨a, b⟩ := hd
        simp only at hd0
        subst hd0
        simp
      · exact absurd h (by simp)

theorem lastValStr_mem_some {L : List (String × String)} {p : String} {v : String}
    (hnd : (L.map Prod.fst).Nodup) (h : (p, v) ∈ L) : lastValStr L p = some v := by
  induction L with
  | nil => simp at h
  | cons hd tl ih =>
    rw [List.map_cons, List.nodup_cons] at hnd
    rw [lastValStr]
    rcases List.mem_cons.mp h with rfl | hm
    · have htl : lastValStr tl p = none := by
        refine lastValStr_eq_none ?_
        intro kv hkv hc
        have hm := List.mem_map_of_mem Prod.fst hkv
        rw [hc] at hm
        exact hnd.1 hm
      rw [htl]
      dsimp only
      rw [if_pos rfl]
    · rw [ih hnd.2 hm]

theorem lastValStr_perm {L1 L2 : List (String × String)} (hperm : L1.Perm L2)
    (hnd : (L2.map Prod.fst).Nodup) (p : String) :
    lastValStr L1 p = lastValStr L2 p := by
  have hnd1 : (L1.map Prod.fst).Nodup := ((hperm.map Prod.fst).nodup_iff).mpr hnd
  cases h2 : lastValStr L2 p with
  | some v =>
    exact lastValStr_mem_some hnd1 (hperm.mem_iff.mpr (lastValStr_some_mem h2))
  | none =>
    cases h1 : lastValStr L1 p with
    | none => rfl
    | some v =>
      have := lastValStr_mem_some hnd (hperm.mem_iff.mp (lastValStr_some_mem h1))
      rw [this] at h2
      exact absurd h2 (by simp)

theorem objFold_nodup_keys {d0 : List (String × String)}
    (h : (d0.map Prod.fst).Nodup) (ps : List (String × String)) :
    ((objFold d0 ps).map Prod.fst).Nodup := by
  induction ps generalizing d0 with
  | nil => exact h
  | cons pr rest ih =>
    rw [objFold, List.foldl_cons]
    exact ih (setAssoc_nodup_keys h)

theorem objFold_keys_sub {d0 ps : List (String × String)} {x : String}
    (h : x ∈ (objFold d0 ps).map Prod.fst) :
    x ∈ d0.map Prod.fst ∨ x ∈ ps.map Prod.fst := by
  induction ps generalizing d0 with
  | nil => exact Or.inl h
  | cons pr rest ih =>
    rw [objFold, List.foldl_cons] at h
    rcases ih h with h' | h'
    · rcases keys_setAssoc_mem h' with h'' | h''
      · exact Or.inl h''
      · exact Or.inr (by simp [h''])
    · exact Or.inr (by simp [h'])

theorem lastValStr_objFold {d0 : List (String × String)}
    (hnd : (d0.map Prod.fst).Nodup) (ps : List (String × String)) (p : String) :
    lastValStr (objFold d0 ps) p =
      match lastValStr ps p with
      | some v => some v
      | none => lastValStr d0 p := by
  induction ps generalizing d0 with
  | nil =>
    rw [objFold, List.foldl_nil, lastValStr]
  | cons pr rest ih =>
    rw [objFold, List.foldl_cons]
    rw [show (List.foldl (fun d' pr' => setAssoc d' pr'.1 pr'.2)
      (setAssoc d0 pr.1 pr.2) rest) = objFold (setAssoc d0 pr.1 pr.2) rest from rfl]
    rw [ih (setAssoc_nodup_keys hnd)]
    rw [lastValStr]
    cases lastValStr rest p with
    | some r => rfl
    | none =>
      dsimp only
      rw [lastValStr_setAssoc hnd p]
      by_cases hp : pr.1 = p
      · rw [if_pos hp, if_pos hp]
      · rw [if_neg hp, if_neg hp]

theorem lastRepl_tokHist_eq_lastValStr {L : List (String × String)} {s : List String}
    {p : String} (htp : tokenize p = s)
    (hall : ∀ kv ∈ L, tokenize kv.1 = s → kv.1 = p) :
    lastRepl (tokHist L) s = lastValStr L p := by
  induction L with
  | nil =>
    rw [show tokHist [] = [] from rfl, lastRepl, lastValStr]
  | cons pr rest ih =>
    rw [show tokHist (pr :: rest) = (tokenize pr.1, pr.2) :: tokHist rest from rfl]
    rw [lastRepl, lastValStr]
    rw [ih (fun kv hkv => hall kv (List.mem_cons_of_mem pr hkv))]
    cases lastValStr rest p with
    | some r => rfl
    | none =>
      dsimp only
      refine if_congr ?_ rfl rfl
      constructor
      · intro h
        exact hall pr (by simp) h
      · intro h
        rw [h, htp]

theorem lastRepl_tokHist_eq_none {L : List (String × String)} {s : List String}
    (hnone : ∀ kv ∈ L, tokenize kv.1 ≠ s) :
    lastRepl (tokHist L) s = none := by
  induction L with
  | nil => rw [show tokHist [] = [] from rfl, lastRepl]
  | cons pr rest ih =>
    rw [show tokHist (pr :: rest) = (tokenize pr.1, pr.2) :: tokHist rest from rfl]
    rw [lastRepl, ih (fun kv hkv => hnone kv (List.mem_cons_of_mem pr hkv))]
    rw [if_neg (hnone pr (by simp))]

/-! ### Evaluation and framing helpers for the claim instances -/

/-- A tree whose lookup stores a word sequence answers the longest-match
query on exactly that sequence with its full length. -/
theorem findLongestMatch_full {t : RadixNode} (hw : WF t) {s : List String} {r : String}
    (h : lookupSeq t s = some r) :
    findLongestMatch t s 0 = some (s.length, r) := by
  have hspec := findLongestMatch_spec hw s 0
  have hsp : StoredPre t (s.drop 0) s.length r := by
    rw [List.drop_zero]
    exact ⟨le_rfl, by rw [List.take_length]; exact h⟩
  cases hft : findLongestMatch t s 0 with
  | none => exact absurd hsp (hspec.1 hft s.length r)
  | some vr =>
    obtain ⟨v, r'⟩ := vr
    obtain ⟨hspv, hmax⟩ := hspec.2 v r' hft
    have hle : s.length ≤ v := hmax s.length r hsp
    have hv : v ≤ s.length := by
      have h1 := hspv.1
      rwa [List.drop_zero] at h1
    have hveq : v = s.length := le_antisymm hv hle
    subst hveq
    have h2 : lookupSeq t ((s.drop 0).take s.length) = some r' := hspv.2
    rw [List.drop_zero, List.take_length, h] at h2
    simp only [Option.some.injEq] at h2
    rw [h2]

/-- When no prefix of the remaining words is stored, the longest-match
query returns no match. -/
theorem findLongestMatch_eq_none {t : RadixNode} (hw : WF t) {ws : List String} {i : Nat}
    (h : ∀ k, k ≤ (ws.drop i).length → lookupSeq t ((ws.drop i).take k) = none) :
    findLongestMatch t ws i = none := by
  cases hft : findLongestMatch t ws i with
  | none => rfl
  | some vr =>
    obtain ⟨v, r⟩ := vr
    obtain ⟨hsp, _⟩ := (findLongestMatch_spec hw ws i).2 v r hft
    have h1 := hsp.2
    rw [h v hsp.1] at h1
    exact absurd h1 (by simp)

/-- Merging pairs with pairwise distinct fresh keys into a dictionary
appends them in order. -/
theorem objFold_eq_append {L : List (String × String)} :
    ∀ d0 : List (String × String), (∀ kv ∈ L, kv.1 ∉ d0.map Prod.fst) →
      (L.map Prod.fst).Nodup → objFold d0 L = d0 ++ L := by
  induction L with
  | nil =>
    intro d0 _ _
    rw [objFold, List.foldl_nil, List.append_nil]
  | cons pr rest ih =>
    obtain ⟨k, v⟩ := pr
    intro d0 hd hnd
    rw [List.map_cons, List.nodup_cons] at hnd
    rw [show objFold d0 ((k, v) :: rest) = objFold (setAssoc d0 k v) rest from rfl]
    have h1 : setAssoc d0 k v = d0 ++ [(k, v)] := by
      refine setAssoc_of_not_mem v ?_
      intro kc hkc hc
      have hm := List.mem_map_of_mem Prod.fst hkc
      rw [hc] at hm
      exact hd (k, v) (by simp) hm
    have hfresh : ∀ kv ∈ rest, kv.1 ∉ (d0 ++ [(k, v)]).map Prod.fst := by
      intro kv hkv
      rw [List.map_append]
      intro hc
      rcases List.mem_append.mp hc with hm | hm
      · exact hd kv (List.mem_cons_of_mem (k, v) hkv) hm
      · have hm2 : kv.1 = k := by simpa using hm
        have hm3 := List.mem_map_of_mem Prod.fst hkv
        rw [hm2] at hm3
        exact hnd.1 hm3
    rw [h1, ih (d0 ++ [(k, v)]) hfresh hnd.2]
    rw [List.append_assoc, List.singleton_append]

/-! ### The claims -/

/-- Claim C1: for every tree built from a fresh root by a finite
sequence of insert calls, and every word sequence and start index, a
no-match answer means no prefix of the remaining words is the
tokenization of an inserted phrase, and an answer (v, r) means the
length-v prefix of the remaining words is the tokenization of an
inserted phrase whose most recently inserted replacement is r, with v
greatest among all stored prefixes (so a stored shorter phrase still
matches when every longer stored phrase fails). -/
theorem claim_C1 (ps : List (String × String)) (ws : List String) (i : Nat) :
    (findLongestMatch (buildTree ps) ws i = none →
      ∀ k r, k ≤ (ws.drop i).length →
        lastRepl (tokHist ps) ((ws.drop i).take k) ≠ some r) ∧
    (∀ v r, findLongestMatch (buildTree ps) ws i = some (v, r) →
      v ≤ (ws.drop i).length ∧
      lastRepl (tokHist ps) ((ws.drop i).take v) = some r ∧
      ∀ j r', j ≤ (ws.drop i).length →
        lastRepl (tokHist ps) ((ws.drop i).take j) = some r' → j ≤ v) := by
  have hw := WF_buildTree ps
  have hspec := findLongestMatch_spec hw ws i
  have hl : ∀ q, lookupSeq (buildTree ps) q = lastRepl (tokHist ps) q :=
    fun q => lookupSeq_buildTree ps q
  constructor
  · intro hn k r hk hc
    exact hspec.1 hn k r ⟨hk, by rw [hl]; exact hc⟩
  · intro v r hv
    obtain ⟨hspv, hmax⟩ := hspec.2 v r hv
    refine ⟨hspv.1, ?_, ?_⟩
    · rw [← hl]
      exact hspv.2
    · intro j r' hj hlr
      exact hmax j r' ⟨hj, by rw [hl]; exact hlr⟩

/-- Witness for claim C1 at a concrete two-phrase history and the exact
word sequence of the shorter phrase. -/
theorem claim_C1_witness :
    2 ≤ (List.drop 0 ["one", "cat"]).length ∧
    lastRepl (tokHist [("one cat", "un gato"), ("one cat and two", "un gato y dos")])
      ((List.drop 0 ["one", "cat"]).take 2) = some "un gato" := by
  have h := (claim_C1 [("one cat", "un gato"), ("one cat and two", "un gato y dos")]
      ["one", "cat"] 0).2 2 "un gato"
    (findLongestMatch_full (WF_buildTree _) (by rw [lookupSeq_buildTree]; decide))
  exact ⟨h.1, h.2.1⟩

/-- Claim C2 (corrected): the batch fold-back pairs every parsed
response with the request at the same index, as the zip of the two
lists.  A response list of matching length merges position-for-position
and an empty response list leaves the tree and dictionary untouched,
but a nonempty response list of the wrong length is not discarded: the
zip truncates to the shorter of the two lists and the aligned pairs are
still inserted and merged. -/
theorem claim_C2 (t : RadixNode) (d : List (String × String)) (reqs resps : List String) :
    applyBatch t d reqs resps =
      ((reqs.zip resps).foldl (fun t' pr => insert t' pr.1 pr.2) t,
       (reqs.zip resps).foldl (fun d' pr => setAssoc d' pr.1 pr.2) d) :=
  applyBatch_eq_zip t d reqs resps

/-- Counterexample to claim C2 as stated: a one-response answer to a
two-request batch is not discarded; the first pair is inserted into the
tree and merged into the dictionary. -/
theorem claim_C2_cex :
    (["hola"] : List String).length ≠ (["hello", "world"] : List String).length ∧
    (applyBatch emptyTree [] ["hello", "world"] ["hola"]).2 = [("hello", "hola")] ∧
    lookupSeq (applyBatch emptyTree [] ["hello", "world"] ["hola"]).1 (tokenize "hello") =
      some "hola" := by
  refine ⟨by decide, by decide, ?_⟩
  have h1 : (applyBatch emptyTree [] ["hello", "world"] ["hola"]).1 =
      insert emptyTree "hello" "hola" := by
    rw [applyBatch_eq_zip]
    rfl
  rw [h1, lookupSeq_insert WF_emptyTree, if_pos rfl]

/-- Claim C3: insertion never removes or alters a previously stored
phrase: after a phrase is inserted with a replacement, inserting any
phrase with a different tokenization leaves the longest-match answer on
the exact word sequence of the first phrase intact. -/
theorem claim_C3 {t : RadixNode} (hw : WF t) (p q r s : String)
    (hne : tokenize q ≠ tokenize p) :
    findLongestMatch (insert (insert t p r) q s) (tokenize p) 0 =
      some ((tokenize p).length, r) := by
  have hw1 := WF_insert hw p r
  refine findLongestMatch_full (WF_insert hw1 q s) ?_
  rw [lookupSeq_insert hw1, if_neg (fun hc => hne hc.symm), lookupSeq_insert hw,
    if_pos rfl]

/-- Witness for claim C3: a second one-word phrase does not disturb the
first. -/
theorem claim_C3_witness :
    findLongestMatch (insert (insert emptyTree "hello" "hola") "world" "mundo")
      (tokenize "hello") 0 = some ((tokenize "hello").length, "hola") :=
  claim_C3 WF_emptyTree "hello" "world" "hola" "mundo" (by decide)

/-- Claim C4: after every finite sequence of insert calls starting from
the fresh root, no node of the tree has two children whose phrase
labels begin with the same first word. -/
theorem claim_C4 (ps : List (String × String)) : DistinctHeads (buildTree ps) :=
  distinctHeads_of_WF_aux (sizeOf (buildTree ps)) (buildTree ps) le_rfl (WF_buildTree ps)

/-- Claim C5 (corrected): inserting a phrase that is empty or
whitespace-only does not fail fast and is not rejected: the tokenizer
returns the single empty word, and the tree silently gains a stored
entry keyed by the empty word, holding the replacement. -/
theorem claim_C5 {t : RadixNode} (hw : WF t) {p : String} (hp : trimChars p.data = [])
    (r : String) (q : List String) :
    tokenize p = [""] ∧
    lookupSeq (insert t p r) q = (if q = [""] then some r else lookupSeq t q) := by
  have htok : tokenize p = [""] := by
    simp only [tokenize]
    rw [hp]
    decide
  refine ⟨htok, ?_⟩
  show lookupSeq (insertRecursive t (tokenize p) r) q = _
  rw [htok]
  exact lookupSeq_insertRecursive hw [""] r q

/-- Witness for claim C5: a two-space phrase inserted into the fresh
root, queried at the single empty word. -/
theorem claim_C5_witness :
    tokenize "  " = [""] ∧
    lookupSeq (insert emptyTree "  " "x") [""] =
      (if ([""] : List String) = [""] then some "x" else lookupSeq emptyTree [""]) :=
  claim_C5 WF_emptyTree (by decide) "x" [""]

/-- Counterexample to claim C5 as stated: inserting the empty phrase
does not fail and is not a no-op: the call silently succeeds and the
tree gains a stored entry for the single empty word. -/
theorem claim_C5_cex :
    lookupSeq (insert emptyTree "" "x") [""] = some "x" ∧
    entries (insert emptyTree "" "x") ≠ entries emptyTree := by
  have h1 : lookupSeq (insert emptyTree "" "x") [""] = some "x" := by
    rw [lookupSeq_insert WF_emptyTree, if_pos (by decide)]
  refine ⟨h1, ?_⟩
  intro hc
  rw [entries_emptyTree] at hc
  rw [lookupSeq, hc, lookupE] at h1
  exact absurd h1 (by simp)

/-- Claim C6: re-insertion is a last-write-wins idempotent update:
after inserting a phrase twice with two replacements, exactly one
end-of-word node stores the word sequence of the phrase, the stored
replacement is the second one, and the longest match on the exact word
sequence returns the full length with the second replacement. -/
theorem claim_C6 {t : RadixNode} (hw : WF t) (p r1 r2 : String) :
    countKey (insert (insert t p r1) p r2) (tokenize p) = 1 ∧
    lookupSeq (insert (insert t p r1) p r2) (tokenize p) = some r2 ∧
    findLongestMatch (insert (insert t p r1) p r2) (tokenize p) 0 =
      some ((tokenize p).length, r2) := by
  have hw1 := WF_insert hw p r1
  have hw2 := WF_insert hw1 p r2
  have hl : lookupSeq (insert (insert t p r1) p r2) (tokenize p) = some r2 := by
    rw [lookupSeq_insert hw1, if_pos rfl]
  exact ⟨countKey_eq_one hw2 hl, hl, findLongestMatch_full hw2 hl⟩

/-- Witness for claim C6 at the fresh root. -/
theorem claim_C6_witness :
    countKey (insert (insert emptyTree "hello" "a") "hello" "b") (tokenize "hello") = 1 ∧
    lookupSeq (insert (insert emptyTree "hello" "a") "hello" "b") (tokenize "hello") =
      some "b" ∧
    findLongestMatch (insert (insert emptyTree "hello" "a") "hello" "b")
      (tokenize "hello") 0 = some ((tokenize "hello").length, "b") :=
  claim_C6 WF_emptyTree "hello" "a" "b"

/-- Claim C7 (corrected): the dictionary round-trip preserves query
behaviour only under two added hypotheses: the merged raw keys are
distinct, and no two distinct raw keys tokenize to the same word
sequence.  A tree hydrated from any enumeration of the merged
dictionary then answers every longest-match query exactly as the
original tree. -/
theorem claim_C7 {L1 L2 : List (String × String)}
    (hnd : (L1.map Prod.fst).Nodup)
    (hinj : ∀ kv1 ∈ L1, ∀ kv2 ∈ L1, tokenize kv1.1 = tokenize kv2.1 → kv1.1 = kv2.1)
    (hperm : (objFold [] L1).Perm L2)
    (ws : List String) (i : Nat) :
    findLongestMatch (buildTree L2) ws i = findLongestMatch (buildTree L1) ws i := by
  have hfold : objFold [] L1 = L1 := by
    have h := objFold_eq_append (L := L1) [] (by simp) hnd
    simpa using h
  rw [hfold] at hperm
  have hnd2 : (L2.map Prod.fst).Nodup := (hperm.map Prod.fst).nodup_iff.mp hnd
  refine findLongestMatch_ext (WF_buildTree L2) (WF_buildTree L1) ?_ ws i
  intro s
  rw [lookupSeq_buildTree, lookupSeq_buildTree]
  by_cases hex : ∃ kv ∈ L1, tokenize kv.1 = s
  · obtain ⟨kv, hkv, htkv⟩ := hex
    have hall1 : ∀ kv2 ∈ L1, tokenize kv2.1 = s → kv2.1 = kv.1 := by
      intro kv2 hkv2 ht2
      exact hinj kv2 hkv2 kv hkv (by rw [ht2, htkv])
    have hall2 : ∀ kv2 ∈ L2, tokenize kv2.1 = s → kv2.1 = kv.1 :=
      fun kv2 hkv2 ht2 => hall1 kv2 (hperm.mem_iff.mpr hkv2) ht2
    rw [lastRepl_tokHist_eq_lastValStr htkv hall2,
      lastRepl_tokHist_eq_lastValStr htkv hall1]
    exact lastValStr_perm hperm.symm hnd kv.1
  · push_neg at hex
    rw [lastRepl_tokHist_eq_none (fun kv hkv => hex kv (hperm.mem_iff.mpr hkv)),
      lastRepl_tokHist_eq_none (fun kv hkv => hex kv hkv)]

/-- Witness for claim C7: a two-entry history hydrated in the reversed
enumeration order. -/
theorem claim_C7_witness :
    findLongestMatch (buildTree [("c", "Z"), ("a b", "X")]) ["a", "b"] 0 =
      findLongestMatch (buildTree [("a b", "X"), ("c", "Z")]) ["a", "b"] 0 :=
  claim_C7 (by decide) (by decide) (by decide) ["a", "b"] 0

/-- Counterexample to claim C7 as stated: two raw phrases with the same
tokenization merge as two distinct dictionary keys; hydrating in one
enumeration order answers the query with the earlier replacement while
the original tree answers with the later one, so an arbitrary
enumeration order does not reproduce the original results. -/
theorem claim_C7_cex :
    objFold [] [("a b", "X"), (" a b ", "Y")] = [("a b", "X"), (" a b ", "Y")] ∧
    [(" a b ", "Y"), ("a b", "X")].Perm [("a b", "X"), (" a b ", "Y")] ∧
    findLongestMatch (buildTree [("a b", "X"), (" a b ", "Y")]) ["a", "b"] 0 =
      some (2, "Y") ∧
    findLongestMatch (buildTree [(" a b ", "Y"), ("a b", "X")]) ["a", "b"] 0 =
      some (2, "X") := by
  refine ⟨by decide, by decide, ?_, ?_⟩
  · have hlk : lookupSeq (buildTree [("a b", "X"), (" a b ", "Y")]) ["a", "b"] =
        some "Y" := by
      rw [lookupSeq_buildTree]
      decide
    exact findLongestMatch_full (WF_buildTree _) hlk
  · have hlk : lookupSeq (buildTree [(" a b ", "Y"), ("a b", "X")]) ["a", "b"] =
        some "X" := by
      rw [lookupSeq_buildTree]
      decide
    exact findLongestMatch_full (WF_buildTree _) hlk

/-- Claim C8 (code bug): on the one-word list with a requested count of
2 the only possible random index is 0 and the sampler must return a
sample of at least one word, yet the code returns the empty string: the
remaining-word count drops the word at the start index itself, so the
slice is empty and the join is a zero-word sample. -/
theorem claim_C8 :
    getRandomWordsFromWords ["hello"] 2 0 = some "" ∧ ("" : String) ≠ "hello" := by
  constructor
  · decide
  · decide

/-- Claim C9 (corrected): insert tokenizes its phrase with trim
followed by a split on single space characters, not on maximal
whitespace runs: two phrases with equal trim-and-split tokenizations
store the same word sequence and produce identical trees. -/
theorem claim_C9 (t : RadixNode) (p q r : String) (h : tokenize p = tokenize q) :
    insert t p r = insert t q r := by
  show insertRecursive t (tokenize p) r = insertRecursive t (tokenize q) r
  rw [h]

/-- Witness for claim C9: leading and trailing spaces trim away, so the
two phrases build the same tree. -/
theorem claim_C9_witness :
    insert emptyTree "a b " "X" = insert emptyTree " a b" "X" :=
  claim_C9 emptyTree "a b " " a b" "X" (by decide)

/-- Counterexample to claim C9 as stated: a run of two spaces is not
collapsed (an empty word appears between the two cuts) and a tab does
not separate words, so two phrases with the same space-separated words
but different interior whitespace are stored and matched differently. -/
theorem claim_C9_cex :
    tokenize "a  b" ≠ tokenize "a b" ∧
    tokenize "a\tb" = ["a\tb"] ∧
    findLongestMatch (insert emptyTree "a  b" "X") ["a", "b"] 0 = none ∧
    findLongestMatch (insert emptyTree "a b" "X") ["a", "b"] 0 = some (2, "X") := by
  refine ⟨by decide, by decide, ?_, ?_⟩
  · refine findLongestMatch_eq_none (WF_insert WF_emptyTree "a  b" "X") ?_
    intro k hk
    rw [List.drop_zero] at hk
    rw [List.drop_zero, lookupSeq_insert WF_emptyTree]
    simp only [List.length_cons, List.length_nil] at hk
    interval_cases k
    · rw [if_neg (by decide), lookupSeq_emptyTree]
    · rw [if_neg (by decide), lookupSeq_emptyTree]
    · rw [if_neg (by decide), lookupSeq_emptyTree]
  · have hlk : lookupSeq (insert emptyTree "a b" "X") ["a", "b"] = some "X" := by
      rw [lookupSeq_insert WF_emptyTree, if_pos (by decide)]
    exact findLongestMatch_full (WF_insert WF_emptyTree "a b" "X") hlk

/-- Claim C10: the longest-match search is a read-only query: in the
heap-threaded embedding of the traversal the heap of nodes after any
search is exactly the heap before it, so every node keeps its phrase
label, replacement, end-of-word flag and children entries. -/
theorem claim_C10 (fuel : Nat) (h : HeapH) (idx : Nat) (words : List String)
    (index ml : Nat) :
    (findLongestMatchRecursiveH fuel h idx words index ml).2 = h :=
  findLongestMatchRecursiveH_heap fuel h idx words index ml

end CommentTranslator
